import Mathlib

/-!
# smartShell: a verification development

A shallow embedding of `smartshell.c` (read line, tokenize, dispatch, launch)
and theorems about it.

Conventions of the embedding.

* A C string is a `List Char` without its terminating NUL; a pointer into the
  line buffer is an index (`Nat`) into a `List Char` that holds the bytes of the
  buffer, terminating NUL included.
* C `int` counters (`position`, `bufsize`) are natural numbers up to
  `INT_MAX`; an addition that would take one of them past `INT_MAX` is signed
  overflow, the outcome `undefined`.
* Standard input is part of the operating-system world: `getline` is a call
  like the others, and the children the shell forks share the stream.
* Operating-system and C-library calls whose result the program cannot
  predict are fields of an `OS` record over an arbitrary world type; theorems
  quantify over every such record.
* Loops that may fail to finish carry a step budget (`fuel`); running out of
  it is the outcome `hang`.
-/

set_option autoImplicit false

namespace SmartShell

/-! ## C strings and the line buffer -/

/-- The NUL byte that terminates a C string. -/
def NUL : Char := Char.ofNat 0

/-- The delimiter set `LSH_TOK_DELIM`: space, tab, carriage return, newline, bell. -/
def LSH_TOK_DELIM : List Char :=
  [Char.ofNat 32, Char.ofNat 9, Char.ofNat 13, Char.ofNat 10, Char.ofNat 7]

/-- The constant `LSH_RL_BUFSIZE` (1024). -/
def LSH_RL_BUFSIZE : Nat := 1024

/-- The constant `LSH_TOK_BUFSIZE` (64), which the source defines and never uses. -/
def LSH_TOK_BUFSIZE : Nat := 64

/-- Size of a `char*` on the LP64 targets the program is built for. -/
def sizeof_ptr : Nat := 8

/-- Exit status `EXIT_FAILURE`. -/
def EXIT_FAILURE : Nat := 1

/-- The largest value of a C `int` (32 bits). -/
def INT_MAX : Nat := 2147483647

/-- The byte at address `i` of a buffer (`NUL` past its end). -/
def peek (buf : List Char) (i : Nat) : Char := buf.getD i NUL

/-- The C string that starts at address `p`: the bytes up to the first NUL. -/
def cstr (buf : List Char) (p : Nat) : List Char :=
  (buf.drop p).takeWhile (fun c => c != NUL)

/-- C library `strspn(s, accept)`: length of the initial segment of the string
at `s` made of bytes of `accept` (the terminating NUL is never one of them). -/
def strspn (buf : List Char) (s : Nat) (accept : List Char) : Nat :=
  ((buf.drop s).takeWhile (fun c => c != NUL && accept.contains c)).length

/-- C library `strcspn(s, reject)`: length of the initial segment of the string
at `s` made of bytes that are not in `reject`. -/
def strcspn (buf : List Char) (s : Nat) (reject : List Char) : Nat :=
  ((buf.drop s).takeWhile (fun c => c != NUL && !reject.contains c)).length

/-- The memory `strtok` works on: the line buffer and the static save pointer. -/
structure StrtokMem where
  buf : List Char
  save : Nat
deriving DecidableEq

/-- C library `strtok(str, delim)`, on a buffer addressed by index.  `str` is
`none` for a `NULL` first argument (continue from the save pointer).  Returns
the token pointer (`none` for `NULL`) and the memory after the call: the
delimiter that ends the token is overwritten with NUL. -/
def strtok (m : StrtokMem) (str : Option Nat) (delim : List Char) :
    Option Nat × StrtokMem :=
  let s0 := str.getD m.save
  if peek m.buf s0 = NUL then (none, { m with save := s0 })
  else
    let s := s0 + strspn m.buf s0 delim
    if peek m.buf s = NUL then (none, { m with save := s })
    else
      let e := s + strcspn m.buf s delim
      if peek m.buf e = NUL then (some s, { m with save := e })
      else (some s, { buf := m.buf.set e NUL, save := e + 1 })

/-! ## The token array -/

/-- One store `tokens[idx] = val` into the token array, with the capacity the
array had when the store was made (`val = none` is the `NULL` sentinel). -/
structure Store where
  idx : Nat
  cap : Nat
  val : Option Nat
deriving DecidableEq

/-- The heap block `tokens`: its current capacity in entries and the stores
made into it, most recent first.  Entries never stored are indeterminate. -/
structure TokenArray where
  bufsize : Nat
  stores : List Store
deriving DecidableEq

/-- The assignment `tokens[i] = v`. -/
def TokenArray.store (a : TokenArray) (i : Nat) (v : Option Nat) : TokenArray :=
  { a with stores := ⟨i, a.bufsize, v⟩ :: a.stores }

/-- The value of `tokens[i]`: `none` when the entry was never stored,
`some none` for `NULL`, `some (some p)` for the pointer `p`. -/
def TokenArray.read (a : TokenArray) (i : Nat) : Option (Option Nat) :=
  (a.stores.find? (fun s => s.idx == i)).map (fun s => s.val)

/-- The pointers of a `NULL`-terminated array, read from index `i` on. -/
def TokenArray.readFrom (a : TokenArray) : Nat → Nat → List Nat
  | _, 0 => []
  | i, fuel + 1 =>
    match a.read i with
    | some (some p) => p :: a.readFrom (i + 1) fuel
    | _ => []

/-! ## Process state and outcomes -/

/-- The state of the shell process: the operating-system side (`sys`, which
holds the file system, the children and standard input) and what the shell
itself has written so far to standard output and standard error. -/
structure Proc (W : Type) where
  sys : W
  stdout : List Char
  stderr : List Char

/-- How a call ends: it returns a value, the process terminates through
`exit(code)`, the process image is replaced by `execvp`, it never ends, or it
runs into behaviour the C standard leaves undefined (signed overflow). -/
inductive Outcome (W : Type) (α : Type) where
  | ret (a : α) (p : Proc W)
  | exit (code : Nat) (p : Proc W)
  | exec (file : List Char) (argv : List (List Char)) (p : Proc W)
  | hang
  | undefined

/-- The status word a `waitpid` call leaves in `status`. -/
inductive WaitStatus where
  | exited (code : Nat)
  | signaled (sig : Nat)
  | stopped (sig : Nat)
  | continued
deriving DecidableEq

/-- Macro `WIFEXITED(status)`: the child terminated normally. -/
def WIFEXITED : WaitStatus → Bool
  | .exited _ => true
  | _ => false

/-- Macro `WIFSIGNALED(status)`: the child was terminated by a signal. -/
def WIFSIGNALED : WaitStatus → Bool
  | .signaled _ => true
  | _ => false

/-- Macro `WIFSTOPPED(status)`: the child was stopped by delivery of a signal. -/
def WIFSTOPPED : WaitStatus → Bool
  | .stopped _ => true
  | _ => false

/-- Option `WUNTRACED` (the option bit passed to `waitpid`). -/
def WUNTRACED : Nat := 2

/-- The operating system and C library as the shell sees them: each call maps
the world to its result and the world after it. -/
structure OS (W : Type) where
  /-- whether `malloc`/`realloc` of this many bytes succeeds -/
  allocOk : Nat → Bool
  /-- text of `strerror(errno)`, the text `perror` prints after its argument -/
  strerror : W → List Char
  chdir : List Char → W → Int × W
  mkdir : List Char → Nat → W → Int × W
  rmdir : List Char → W → Int × W
  /-- call `getcwd(buf, size)`: the working directory, `none` for `NULL` -/
  getcwd : Nat → W → Option (List Char) × W
  /-- call `fopen(path, mode)`: a stream handle, `none` for `NULL` -/
  fopen : List Char → List Char → W → Option Nat × W
  fclose : Nat → W → W
  system : List Char → W → Int × W
  fork : W → Int × W
  /-- call `execvp(file, argv)`: `none` when the image was replaced (no return) -/
  execvp : List Char → List (List Char) → W → Option (Int × W)
  /-- call `waitpid(pid, &status, options)`: return value, status word, world -/
  waitpid : Int → Nat → W → Int × WaitStatus × W
  /-- call `getline(&line, &bufsize, stdin)`: the line read, `none` for -1 -/
  getline : W → Option (List Char) × W
  /-- call `feof(stdin)` -/
  feof : W → Bool

variable {W : Type}

/-- Call of `printf` with a fixed text: append to standard output. -/
def printf (s : String) (p : Proc W) : Proc W :=
  { p with stdout := p.stdout ++ s.toList }

/-- Call of `fprintf(stderr, ...)` with a fixed text. -/
def eprintf (s : String) (p : Proc W) : Proc W :=
  { p with stderr := p.stderr ++ s.toList }

/-- Call `perror(s)`: writes `s`, a colon and a blank, the text for `errno`, and a
newline to standard error. -/
def perror (os : OS W) (s : String) (p : Proc W) : Proc W :=
  { p with stderr := p.stderr ++ s.toList ++ ": ".toList ++ os.strerror p.sys ++ "\n".toList }

/-! ## `lsh_read_line` -/

/-- What `lsh_split_line` leaves behind when it returns: the token array it
returns, the line buffer as `strtok` rewrote it, and the final value of the
local `position`. -/
structure SplitResult where
  tokens : TokenArray
  buf : List Char
  position : Nat
deriving DecidableEq

/-- The `while (token != NULL)` loop of `lsh_split_line`, entered with the
token the preceding `strtok` call returned.  `position` and `bufsize` are C
`int`: `position++` and `bufsize += LSH_RL_BUFSIZE` past `INT_MAX` are
undefined. -/
def split_loop (os : OS W) (p : Proc W) :
    Nat → StrtokMem → TokenArray → Nat → Option Nat → Outcome W SplitResult
  | _, m, tokens, position, none =>
    .ret { tokens := tokens.store position none, buf := m.buf, position := position } p
  | 0, _, _, _, some _ => .hang
  | fuel + 1, m, tokens, position, some token =>
    let tokens := tokens.store position (some token)
    if INT_MAX < position + 1 then .undefined
    else
      let position := position + 1
      if position ≥ tokens.bufsize then
        if INT_MAX < tokens.bufsize + LSH_RL_BUFSIZE then .undefined
        else
          let bufsize := tokens.bufsize + LSH_RL_BUFSIZE
          if os.allocOk (bufsize * sizeof_ptr) then
            let tokens := { tokens with bufsize := bufsize }
            let r := strtok m none LSH_TOK_DELIM
            split_loop os p fuel r.2 tokens position r.1
          else
            .exit EXIT_FAILURE (eprintf "lsh: allocation error\n" p)
      else
        let r := strtok m none LSH_TOK_DELIM
        split_loop os p fuel r.2 tokens position r.1

/-- Function `lsh_split_line(line)`.  The buffer is the line followed by its NUL. -/
def lsh_split_line (os : OS W) (line : List Char) (p : Proc W) : Outcome W SplitResult :=
  let bufsize := LSH_RL_BUFSIZE
  if os.allocOk (bufsize * sizeof_ptr) then
    let tokens : TokenArray := { bufsize := bufsize, stores := [] }
    let r := strtok { buf := line ++ [NUL], save := 0 } (some 0) LSH_TOK_DELIM
    split_loop os p (line.length + 1) r.2 tokens 0 r.1
  else
    .exit EXIT_FAILURE (eprintf "lsh: allocation error\n" p)

/-- The argument vector a `NULL`-terminated token array denotes: the C strings
its pointers address in the line buffer, up to the first `NULL`. -/
def argv (r : SplitResult) : List (List Char) :=
  (r.tokens.readFrom 0 r.tokens.bufsize).map (cstr r.buf)

/-! ## `lsh_launch` -/

/-- The loop of the parent,
`do { wpid = waitpid(pid, &status, WUNTRACED); } while (!WIFEXITED(status) && !WIFSIGNALED(status));`
on the operating-system state; `none` when the budget of calls runs out. -/
def wait_loop (os : OS W) (pid : Int) : Nat → W → Option W
  | 0, _ => none
  | fuel + 1, w =>
    let r := os.waitpid pid WUNTRACED w
    if !WIFEXITED r.2.1 && !WIFSIGNALED r.2.1 then wait_loop os pid fuel r.2.2
    else some r.2.2

/-- Function `lsh_launch(args)`.  `fork` returning 0 is the branch the child
process runs: it calls `execvp` and, when that returns, exits with
`EXIT_FAILURE`.  The parent waits and returns 1. -/
def lsh_launch (os : OS W) (fuel : Nat) (args : List (List Char)) (p : Proc W) :
    Outcome W Int :=
  let r := os.fork p.sys
  let pid := r.1
  let p := { p with sys := r.2 }
  if pid = 0 then
    match os.execvp (args.headD []) args p.sys with
    | none => .exec (args.headD []) args p
    | some (e, w) =>
      let p := { p with sys := w }
      if e = -1 then .exit EXIT_FAILURE (perror os "lsh" p)
      else .exit EXIT_FAILURE p
  else if pid < 0 then
    .ret 1 (perror os "lsh" p)
  else
    match wait_loop os pid fuel p.sys with
    | none => .hang
    | some w => .ret 1 { p with sys := w }

/-! ## Builtins -/

/-- The table `builtin_str`. -/
def builtin_str : List (List Char) :=
  ["cd".toList, "help".toList, "exit".toList, "mkdir".toList,
   "ls".toList, "pwd".toList, "touch".toList, "rmdir".toList]

/-- Function `lsh_num_builtins()`: `sizeof(builtin_str) / sizeof(char *)`. -/
def lsh_num_builtins : Nat := builtin_str.length

/-- Function `lsh_cd(args)`. -/
def lsh_cd (os : OS W) (args : List (List Char)) (p : Proc W) : Outcome W Int :=
  match args[1]? with
  | none => .ret 1 (eprintf "lsh: cd: missing argument\n" p)
  | some dir =>
    let r := os.chdir dir p.sys
    let p := { p with sys := r.2 }
    if r.1 ≠ 0 then .ret 1 (perror os "lsh" p) else .ret 1 p

/-- The `for` loop of `lsh_help`: one line per builtin name. -/
def lsh_help_names (p : Proc W) : List (List Char) → Proc W
  | [] => p
  | name :: rest =>
    lsh_help_names { p with stdout := p.stdout ++ "  ".toList ++ name ++ "\n".toList } rest

/-- Function `lsh_help(args)`. -/
def lsh_help (_os : OS W) (_args : List (List Char)) (p : Proc W) : Outcome W Int :=
  let p := printf "SmartShell\n" p
  let p := printf "Type program names and arguments, and hit enter.\n" p
  let p := printf "The following are built-in commands:\n" p
  let p := lsh_help_names p (builtin_str.take lsh_num_builtins)
  let p := printf "Use the man command for information on other programs.\n" p
  .ret 1 p

/-- Function `lsh_mkdir(args)`; the mode is `0755`. -/
def lsh_mkdir (os : OS W) (args : List (List Char)) (p : Proc W) : Outcome W Int :=
  match args[1]? with
  | none => .ret 1 (eprintf "lsh: mkdir: missing argument\n" p)
  | some dir =>
    let r := os.mkdir dir 0o755 p.sys
    let p := { p with sys := r.2 }
    if r.1 ≠ 0 then .ret 1 (perror os "lsh" p) else .ret 1 p

/-- Function `lsh_ls(args)`. -/
def lsh_ls (os : OS W) (args : List (List Char)) (p : Proc W) : Outcome W Int :=
  match args[1]? with
  | some _ => .ret 1 (eprintf "lsh: ls: no arguments expected\n" p)
  | none =>
    let r := os.system "ls".toList p.sys
    let p := { p with sys := r.2 }
    if r.1 = -1 then .ret 1 (perror os "lsh" p) else .ret 1 p

/-- Function `lsh_pwd(args)`; the buffer `cwd` has 1024 bytes. -/
def lsh_pwd (os : OS W) (_args : List (List Char)) (p : Proc W) : Outcome W Int :=
  let r := os.getcwd 1024 p.sys
  let p := { p with sys := r.2 }
  match r.1 with
  | some cwd => .ret 1 { p with stdout := p.stdout ++ cwd ++ "\n".toList }
  | none => .ret 1 (perror os "lsh" p)

/-- Function `lsh_touch(args)`. -/
def lsh_touch (os : OS W) (args : List (List Char)) (p : Proc W) : Outcome W Int :=
  match args[1]? with
  | none => .ret 1 (eprintf "lsh: touch: missing argument\n" p)
  | some path =>
    let r := os.fopen path "a".toList p.sys
    let p := { p with sys := r.2 }
    match r.1 with
    | none => .ret 1 (perror os "lsh" p)
    | some file => .ret 1 { p with sys := os.fclose file p.sys }

/-- Function `lsh_rmdir(args)`. -/
def lsh_rmdir (os : OS W) (args : List (List Char)) (p : Proc W) : Outcome W Int :=
  match args[1]? with
  | none => .ret 1 (eprintf "lsh: rmdir: missing argument\n" p)
  | some dir =>
    let r := os.rmdir dir p.sys
    let p := { p with sys := r.2 }
    if r.1 ≠ 0 then .ret 1 (perror os "lsh" p) else .ret 1 p

/-- Function `lsh_exit(args)`. -/
def lsh_exit (_os : OS W) (_args : List (List Char)) (p : Proc W) : Outcome W Int :=
  .ret 0 p

/-- The table `builtin_func`, in the order of `builtin_str`. -/
def builtin_func : List (OS W → List (List Char) → Proc W → Outcome W Int) :=
  [lsh_cd, lsh_help, lsh_exit, lsh_mkdir, lsh_ls, lsh_pwd, lsh_touch, lsh_rmdir]

/-! ## `lsh_execute` -/

/-- C library `strcmp`: negative, zero or positive as the first string is
less than, equal to or greater than the second (bytes compared as unsigned). -/
def strcmp : List Char → List Char → Int
  | [], [] => 0
  | [], _ :: _ => -1
  | _ :: _, [] => 1
  | a :: as, b :: bs =>
    if a = b then strcmp as bs else if a.toNat < b.toNat then -1 else 1

/-- The `for (i = 0; i < lsh_num_builtins(); i++)` loop of `lsh_execute`,
from index `i` on, with `n` indices left to visit; falls through to
`lsh_launch`.  The defaults of the two table look-ups are never reached: `i`
stays below the length of both tables. -/
def lsh_execute_loop (os : OS W) (fuel : Nat) (args : List (List Char)) (p : Proc W) :
    Nat → Nat → Outcome W Int
  | 0, _ => lsh_launch os fuel args p
  | n + 1, i =>
    if strcmp (args.headD []) (builtin_str.getD i []) = 0 then
      (builtin_func.getD i lsh_exit) os args p
    else lsh_execute_loop os fuel args p n (i + 1)

/-- Function `lsh_execute(args)`; `args[0] == NULL` is the empty list. -/
def lsh_execute (os : OS W) (fuel : Nat) (args : List (List Char)) (p : Proc W) :
    Outcome W Int :=
  match args with
  | [] => .ret 1 p
  | _ :: _ => lsh_execute_loop os fuel args p lsh_num_builtins 0

/-! ## `lsh_loop` and `main` -/

/-- Whether a byte is one of the delimiters of `LSH_TOK_DELIM`. -/
def isDelim (c : Char) : Bool := LSH_TOK_DELIM.contains c

/-- The C string a line buffer holds: the bytes before the first NUL. -/
def cline (line : List Char) : List Char := line.takeWhile (fun c => c != NUL)

/-- Tokens as the specification defines them: the maximal contiguous runs of
non-delimiter characters of a line, left to right.  They are the pieces
between delimiters, the empty pieces left out. -/
def maximalRuns (line : List Char) : List (List Char) :=
  (line.splitOnP isDelim).filter (fun t => !t.isEmpty)

/-- The tokens of a line, said without an algorithm: `IsRunSplit line ts` holds
when the line is delimiters only and `ts` is empty, or the line is a stretch
of delimiters, then the first token (not empty, free of delimiters), and then
either the end of the line or one delimiter followed by a line whose tokens
are the remaining ones.  Each token is thus a run of non-delimiters that
cannot be extended on either side. -/
inductive IsRunSplit : List Char → List (List Char) → Prop where
  | none (ds : List Char) (hds : ∀ c ∈ ds, c ∈ LSH_TOK_DELIM) : IsRunSplit ds []
  | last (ds t : List Char) (hds : ∀ c ∈ ds, c ∈ LSH_TOK_DELIM) (hne : t ≠ [])
      (ht : ∀ c ∈ t, c ∉ LSH_TOK_DELIM) : IsRunSplit (ds ++ t) [t]
  | more (ds t : List Char) (d : Char) (rest : List Char) (ts : List (List Char))
      (hds : ∀ c ∈ ds, c ∈ LSH_TOK_DELIM) (hne : t ≠ [])
      (ht : ∀ c ∈ t, c ∉ LSH_TOK_DELIM) (hd : d ∈ LSH_TOK_DELIM)
      (hrest : IsRunSplit rest ts) : IsRunSplit (ds ++ (t ++ d :: rest)) (t :: ts)

/-! ## The token array in closed form -/

/-- The array after the capacity check that follows a store: enlarged by
`LSH_RL_BUFSIZE` entries when `position` has reached the capacity. -/
def grow (a : TokenArray) (position : Nat) : TokenArray :=
  if position ≥ a.bufsize then { a with bufsize := a.bufsize + LSH_RL_BUFSIZE } else a

/-- The array after storing the pointers `ptrs` from index `position` on,
with the capacity check after each, and then the `NULL` sentinel. -/
def fill (a : TokenArray) (position : Nat) : List Nat → TokenArray
  | [] => a.store position none
  | q :: qs => fill (grow (a.store position (some q)) (position + 1)) (position + 1) qs


/-! ## Child status reports -/

/-- The world after `k` successive `waitpid(pid, &status, WUNTRACED)` calls. -/
def waitWorld (os : OS W) (pid : Int) : Nat → W → W
  | 0, w => w
  | k + 1, w => waitWorld os pid k (os.waitpid pid WUNTRACED w).2.2

/-- The status word reported by call number `k` (from 0) of that sequence. -/
def waitReport (os : OS W) (pid : Int) (k : Nat) (w : W) : WaitStatus :=
  (os.waitpid pid WUNTRACED (waitWorld os pid k w)).2.1

/-- An operating system in which memory is always granted, standard input is
at its end, and every other call fails and changes nothing. -/
def denyOS (W : Type) : OS W where
  allocOk := fun _ => true
  strerror := fun _ => "Operation not permitted".toList
  chdir := fun _ w => (-1, w)
  mkdir := fun _ _ w => (-1, w)
  rmdir := fun _ w => (-1, w)
  getcwd := fun _ w => (none, w)
  fopen := fun _ _ w => (none, w)
  fclose := fun _ w => w
  system := fun _ w => (-1, w)
  fork := fun w => (-1, w)
  execvp := fun _ _ w => some (-1, w)
  waitpid := fun _ _ w => (-1, .continued, w)
  getline := fun w => (none, w)
  feof := fun _ => true

/-- An operating system whose world is the list of status reports the child
will produce: `fork` succeeds with child pid 1 and each `waitpid` call
delivers the next report.  With no report left the child never changes state
again (the call is modelled as reporting `continued`). -/
def scriptOS : OS (List WaitStatus) :=
  { denyOS (List WaitStatus) with
    fork := fun w => (1, w)
    waitpid := fun pid _ w =>
      match w with
      | s :: rest => (pid, s, rest)
      | [] => (-1, .continued, []) }

/-! ## A model of the directory tree -/

/-- What a node of the file system is. -/
inductive NodeKind where
  | file
  | dir
deriving DecidableEq

/-- The file system as `mkdir(2)` and `rmdir(2)` see it: the nodes other than
the root directory, each under its absolute path (the list of its
components), the working directory, and `errno`.  No symbolic links,
permissions, mount points or timestamps. -/
structure FsWorld where
  nodes : List (List (List Char) × NodeKind)
  cwd : List (List Char)
  errno : Nat
deriving DecidableEq

/-- Error numbers of `errno.h` used by the model. -/
def ENOENT : Nat := 2

/-- Error number for a busy resource. -/
def EBUSY : Nat := 16

/-- Error number for an existing file. -/
def EEXIST : Nat := 17

/-- Error number for a path that is no directory. -/
def ENOTDIR : Nat := 20

/-- Error number for a directory that is not empty. -/
def ENOTEMPTY : Nat := 39

/-- Error number for an invalid argument. -/
def EINVAL : Nat := 22

/-- The components of a path name: the pieces between slashes, empty pieces
(doubled or trailing slashes) left out. -/
def pathComponents (name : List Char) : List (List Char) :=
  (name.splitOnP (fun c => c == Char.ofNat 47)).filter (fun c => !c.isEmpty)

/-- Whether some node exists at an absolute path. -/
def existsAt (nodes : List (List (List Char) × NodeKind)) (q : List (List Char)) : Bool :=
  q = [] || nodes.any (fun n => n.1 = q)

/-- Whether a directory exists at an absolute path. -/
def isDirAt (nodes : List (List (List Char) × NodeKind)) (q : List (List Char)) : Bool :=
  q = [] || nodes.contains (q, NodeKind.dir)

/-- Whether some node lies directly inside the directory at `q`. -/
def hasChild (nodes : List (List (List Char) × NodeKind)) (q : List (List Char)) : Bool :=
  nodes.any (fun n => n.1 ≠ [] && n.1.dropLast = q)

/-- Path resolution over the directory components of a path, from the
directory `here`: `.` stays, `..` goes to the parent (the root is its own
parent), and a name is looked up: it must be an existing directory, else the
walk fails with `ENOTDIR` (it is a file) or `ENOENT` (it is missing). -/
def walkDirs (nodes : List (List (List Char) × NodeKind)) :
    List (List Char) → List (List Char) → Except Nat (List (List Char))
  | here, [] => .ok here
  | here, c :: cs =>
    if c = ".".toList then walkDirs nodes here cs
    else if c = "..".toList then walkDirs nodes here.dropLast cs
    else if nodes.contains (here ++ [c], NodeKind.dir) then walkDirs nodes (here ++ [c]) cs
    else .error (if existsAt nodes (here ++ [c]) then ENOTDIR else ENOENT)

/-- What the last component of a resolved path name denotes: the root (the
name is slashes only), the directory reached itself (`.`), its parent (`..`),
or the entry `name` of the directory `parent`. -/
inductive PathTarget where
  | root
  | dot (here : List (List Char))
  | dotdot (here : List (List Char))
  | entry (parent : List (List Char)) (name : List Char)
deriving DecidableEq

/-- Path resolution of `mkdir(2)` and `rmdir(2)`: every component but the last
is walked as a directory, from the root for an absolute name and from the
working directory otherwise; the empty name fails with `ENOENT`. -/
def resolveTarget (nodes : List (List (List Char) × NodeKind)) (cwd : List (List Char))
    (name : List Char) : Except Nat PathTarget :=
  if name = [] then .error ENOENT
  else
    match (pathComponents name).getLast? with
    | none => .ok PathTarget.root
    | some last =>
      match walkDirs nodes (if name.head? = some (Char.ofNat 47) then [] else cwd)
          (pathComponents name).dropLast with
      | .error e => .error e
      | .ok here =>
        if last = ".".toList then .ok (PathTarget.dot here)
        else if last = "..".toList then .ok (PathTarget.dotdot here)
        else .ok (PathTarget.entry here last)

/-- Every node lies inside an existing directory. -/
def FsWorld.wellFormed (w : FsWorld) : Bool :=
  w.nodes.all (fun n => n.1 ≠ [] && isDirAt w.nodes n.1.dropLast)

/-- Whether a path name denotes, as an entry of its parent directory, an
existing empty directory: the names `rmdir` can remove. -/
def FsWorld.isEmptyDir (w : FsWorld) (name : List Char) : Bool :=
  match resolveTarget w.nodes w.cwd name with
  | .ok (PathTarget.entry parent nm) =>
    w.nodes.contains (parent ++ [nm], NodeKind.dir) && !hasChild w.nodes (parent ++ [nm])
  | _ => false

/-- System call `mkdir(path, mode)` on the model: fails with `EEXIST` when the
path exists already (also for the root, `.` and `..`), with `ENOENT` when the
parent directory is gone, and with the error of the walk; else it adds the
directory. -/
def fsMkdir (name : List Char) (_mode : Nat) (w : FsWorld) : Int × FsWorld :=
  match resolveTarget w.nodes w.cwd name with
  | .error e => (-1, { w with errno := e })
  | .ok (PathTarget.entry parent nm) =>
    if existsAt w.nodes (parent ++ [nm]) then (-1, { w with errno := EEXIST })
    else if !isDirAt w.nodes parent then (-1, { w with errno := ENOENT })
    else (0, { w with nodes := (parent ++ [nm], NodeKind.dir) :: w.nodes })
  | .ok _ => (-1, { w with errno := EEXIST })

/-- System call `rmdir(path)` on the model: fails with `EBUSY` for the root,
`EINVAL` for a last component `.`, `ENOTEMPTY` for a last component `..` and
for a directory with entries, `ENOTDIR` for a file, `ENOENT` for a missing
entry, and with the error of the walk; else it removes the directory. -/
def fsRmdir (name : List Char) (w : FsWorld) : Int × FsWorld :=
  match resolveTarget w.nodes w.cwd name with
  | .error e => (-1, { w with errno := e })
  | .ok PathTarget.root => (-1, { w with errno := EBUSY })
  | .ok (PathTarget.dot _) => (-1, { w with errno := EINVAL })
  | .ok (PathTarget.dotdot _) => (-1, { w with errno := ENOTEMPTY })
  | .ok (PathTarget.entry parent nm) =>
    if !w.nodes.contains (parent ++ [nm], NodeKind.dir) then
      (-1, { w with errno := if existsAt w.nodes (parent ++ [nm]) then ENOTDIR else ENOENT })
    else if hasChild w.nodes (parent ++ [nm]) then (-1, { w with errno := ENOTEMPTY })
    else (0, { w with nodes := w.nodes.erase (parent ++ [nm], NodeKind.dir) })

/-- An operating system whose `mkdir` and `rmdir` act on the directory-tree
model; the other calls are those of `base`. -/
def fsOS (base : OS FsWorld) : OS FsWorld :=
  { base with mkdir := fsMkdir, rmdir := fsRmdir }

/-! ## The loop, line by line -/

/-- A process that has written nothing yet. -/
def idleProc (w : W) : Proc W :=
  { sys := w, stdout := [], stderr := [] }

/-- The line of 64 tokens `a a a ... a`. -/
def line64 : List Char := (List.replicate 64 "a ".toList).flatten

/-- A line of `n` tokens `a`, each followed by a blank. -/
def tokenLine (n : Nat) : List Char := (List.replicate n "a ".toList).flatten

/-- The number of tokens at which `bufsize += LSH_RL_BUFSIZE` leaves the range
of `int`: `INT_MAX + 1 - LSH_RL_BUFSIZE`. -/
def TOKEN_LIMIT : Nat := 2147482624

/-! ## Lemmas on the buffer and `strtok` -/

theorem isDelim_NUL : isDelim NUL = false := by decide

theorem takeWhile_append_stop {α : Type} (P : α → Bool) (xs : List α) (c : α) (ys : List α)
    (h : ∀ x ∈ xs, P x = true) (hc : P c = false) :
    (xs ++ c :: ys).takeWhile P = xs := by
  induction xs with
  | nil => simp [List.takeWhile, hc]
  | cons x xs ih =>
    have hx : P x = true := h x (List.mem_cons_self _ _)
    rw [List.cons_append, List.takeWhile_cons_of_pos hx,
      ih (fun y hy => h y (List.mem_cons_of_mem _ hy))]

theorem peek_append (pre : List Char) (c : Char) (x : List Char) (n : Nat)
    (hn : n = pre.length) : peek (pre ++ c :: x) n = c := by
  subst hn
  induction pre with
  | nil => rfl
  | cons a pre ih => simpa [peek] using ih

theorem set_append (pre : List Char) (c v : Char) (x : List Char) (n : Nat)
    (hn : n = pre.length) : (pre ++ c :: x).set n v = pre ++ v :: x := by
  subst hn
  induction pre with
  | nil => rfl
  | cons a pre ih => simp [ih]

theorem drop_append (pre x : List Char) (n : Nat) (hn : n = pre.length) :
    (pre ++ x).drop n = x := by
  subst hn; exact List.drop_left _ _

theorem cstr_append (pre t x : List Char) (n : Nat) (hn : n = pre.length)
    (ht : ∀ c ∈ t, c ≠ NUL) : cstr (pre ++ (t ++ NUL :: x)) n = t := by
  unfold cstr
  rw [drop_append pre _ n hn]
  apply takeWhile_append_stop
  · intro c hc; simpa using ht c hc
  · simp

theorem strspn_append (pre ds x : List Char) (c : Char) (n : Nat) (hn : n = pre.length)
    (hds : ∀ c ∈ ds, isDelim c = true) (hc : isDelim c = false) :
    strspn (pre ++ (ds ++ c :: x)) n LSH_TOK_DELIM = ds.length := by
  unfold strspn
  rw [drop_append pre _ n hn, takeWhile_append_stop]
  · intro y hy
    have h1 := hds y hy
    have h2 : y ≠ NUL := by
      intro h; rw [h, isDelim_NUL] at h1; exact Bool.noConfusion h1
    simpa [isDelim, h2] using h1
  · simpa [isDelim] using fun _ => hc

theorem strcspn_append (pre t x : List Char) (e : Char) (n : Nat) (hn : n = pre.length)
    (ht : ∀ c ∈ t, isDelim c = false ∧ c ≠ NUL) (he : e = NUL ∨ isDelim e = true) :
    strcspn (pre ++ (t ++ e :: x)) n LSH_TOK_DELIM = t.length := by
  unfold strcspn
  rw [drop_append pre _ n hn, takeWhile_append_stop]
  · intro y hy
    have h1 := ht y hy
    simpa [isDelim, h1.2] using h1.1
  · rcases he with he | he
    · simp [he]
    · simpa [isDelim] using fun _ => he

theorem ne_NUL_of_isDelim {c : Char} (h : isDelim c = true) : c ≠ NUL := by
  intro hc; rw [hc, isDelim_NUL] at h; exact Bool.noConfusion h

/-- `strtok` on a string with nothing but delimiters left returns `NULL`. -/
theorem strtok_none (pre ds junk : List Char) (m : StrtokMem) (str : Option Nat)
    (hbuf : m.buf = pre ++ (ds ++ NUL :: junk)) (hs : str.getD m.save = pre.length)
    (hds : ∀ c ∈ ds, isDelim c = true) :
    (strtok m str LSH_TOK_DELIM).1 = none ∧ (strtok m str LSH_TOK_DELIM).2.buf = m.buf := by
  unfold strtok
  simp only [hs]
  by_cases h0 : peek m.buf pre.length = NUL
  · simp [h0]
  · have hsp : strspn m.buf pre.length LSH_TOK_DELIM = ds.length := by
      rw [hbuf]; exact strspn_append pre ds junk NUL _ rfl hds isDelim_NUL
    have hp : peek m.buf (pre.length + ds.length) = NUL := by
      rw [hbuf, ← List.append_assoc]
      exact peek_append (pre ++ ds) NUL junk _ (by simp)
    simp [h0, hsp, hp]

/-- `strtok` on a string that has a token `t` left, after the delimiters `ds`
and before the byte `e` (a delimiter or the final NUL). -/
theorem strtok_some (pre ds t x : List Char) (e : Char) (m : StrtokMem) (str : Option Nat)
    (hbuf : m.buf = pre ++ (ds ++ (t ++ e :: x))) (hs : str.getD m.save = pre.length)
    (hds : ∀ c ∈ ds, isDelim c = true) (ht : ∀ c ∈ t, isDelim c = false ∧ c ≠ NUL)
    (hne : t ≠ []) (he : e = NUL ∨ isDelim e = true) :
    strtok m str LSH_TOK_DELIM =
      (some (pre.length + ds.length),
        if e = NUL then { m with save := pre.length + ds.length + t.length }
        else { buf := pre ++ (ds ++ (t ++ NUL :: x)),
               save := pre.length + ds.length + t.length + 1 }) := by
  obtain ⟨c, t1, rfl⟩ := List.exists_cons_of_ne_nil hne
  have hc := ht c (List.mem_cons_self _ _)
  have h0 : peek m.buf pre.length ≠ NUL := by
    rw [hbuf]
    cases ds with
    | nil => rw [List.nil_append, List.cons_append, peek_append pre c _ _ rfl]; exact hc.2
    | cons d ds =>
      rw [List.cons_append, peek_append pre d _ _ rfl]
      exact ne_NUL_of_isDelim (hds d (List.mem_cons_self _ _))
  have hsp : strspn m.buf pre.length LSH_TOK_DELIM = ds.length := by
    rw [hbuf, List.cons_append]; exact strspn_append pre ds _ c _ rfl hds hc.1
  have h1 : peek m.buf (pre.length + ds.length) ≠ NUL := by
    rw [hbuf, ← List.append_assoc, List.cons_append,
      peek_append (pre ++ ds) c _ _ (by simp)]
    exact hc.2
  have hcsp : strcspn m.buf (pre.length + ds.length) LSH_TOK_DELIM = (c :: t1).length := by
    rw [hbuf, ← List.append_assoc]
    exact strcspn_append (pre ++ ds) (c :: t1) x e _ (by simp) ht he
  have h2 : peek m.buf (pre.length + ds.length + (c :: t1).length) = e := by
    rw [hbuf, ← List.append_assoc, ← List.append_assoc]
    exact peek_append (pre ++ ds ++ (c :: t1)) e x _ (by simp; omega)
  have h3 : m.buf.set (pre.length + ds.length + (c :: t1).length) NUL
      = pre ++ (ds ++ ((c :: t1) ++ NUL :: x)) := by
    rw [hbuf, ← List.append_assoc, ← List.append_assoc,
      set_append (pre ++ ds ++ (c :: t1)) e NUL x _ (by simp; omega)]
    simp
  unfold strtok
  simp only [hs, if_neg h0, hsp, if_neg h1, hcsp, h2, h3]
  by_cases hE : e = NUL <;> simp [hE]

/-! ### The specification side: maximal runs -/

theorem maximalRuns_nil : maximalRuns [] = [] := rfl

theorem maximalRuns_delims (ds r : List Char) (hds : ∀ c ∈ ds, isDelim c = true) :
    maximalRuns (ds ++ r) = maximalRuns r := by
  induction ds with
  | nil => rfl
  | cons d ds ih =>
    have hd := hds d (List.mem_cons_self _ _)
    have := ih (fun c hc => hds c (List.mem_cons_of_mem _ hc))
    simp only [maximalRuns] at this ⊢
    simp [List.splitOnP_cons, hd, this]

theorem maximalRuns_token_end (t : List Char) (ht : ∀ c ∈ t, isDelim c = false)
    (hne : t ≠ []) : maximalRuns t = [t] := by
  unfold maximalRuns
  rw [List.splitOnP_eq_single isDelim t (by intro c hc; simp [ht c hc])]
  cases t with
  | nil => exact absurd rfl hne
  | cons c t => rfl

theorem maximalRuns_token_cons (t r : List Char) (d : Char) (ht : ∀ c ∈ t, isDelim c = false)
    (hne : t ≠ []) (hd : isDelim d = true) :
    maximalRuns (t ++ d :: r) = t :: maximalRuns r := by
  unfold maximalRuns
  rw [List.splitOnP_first isDelim t (by intro c hc; simp [ht c hc]) d hd]
  cases t with
  | nil => exact absurd rfl hne
  | cons c t => rfl

/-- Every line is delimiters only, or delimiters, then a token, then either the
end of the line or a delimiter and the rest. -/
theorem line_cases (rest : List Char) :
    (∀ c ∈ rest, isDelim c = true) ∨
    ∃ ds t x, rest = ds ++ (t ++ x) ∧ (∀ c ∈ ds, isDelim c = true) ∧ t ≠ [] ∧
      (∀ c ∈ t, isDelim c = false) ∧ (x = [] ∨ ∃ d r, x = d :: r ∧ isDelim d = true) := by
  induction rest with
  | nil => left; intro c hc; cases hc
  | cons a rest ih =>
    by_cases ha : isDelim a = true
    · rcases ih with h | ⟨ds, t, x, h1, h2, h3, h4, h5⟩
      · left
        intro c hc
        rcases List.mem_cons.mp hc with rfl | hc
        · exact ha
        · exact h c hc
      · right
        refine ⟨a :: ds, t, x, (by rw [h1]; rfl), ?_, h3, h4, h5⟩
        intro c hc
        rcases List.mem_cons.mp hc with rfl | hc
        · exact ha
        · exact h2 c hc
    · have ha : isDelim a = false := by simpa using ha
      have hnil : ∀ c ∈ ([] : List Char), isDelim c = true := by simp
      have hsing : ∀ c ∈ [a], isDelim c = false := by simpa using ha
      right
      rcases ih with h | ⟨ds, t, x, h1, h2, h3, h4, h5⟩
      · cases rest with
        | nil => exact ⟨[], [a], [], rfl, hnil, (by simp), hsing, Or.inl rfl⟩
        | cons d r =>
          exact ⟨[], [a], d :: r, rfl, hnil, (by simp), hsing,
            Or.inr ⟨d, r, rfl, h d (List.mem_cons_self _ _)⟩⟩
      · cases ds with
        | nil =>
          refine ⟨[], a :: t, x, (by rw [h1]; rfl), hnil, (by simp), ?_, h5⟩
          intro c hc
          rcases List.mem_cons.mp hc with rfl | hc
          · exact ha
          · exact h4 c hc
        | cons d ds =>
          exact ⟨[], [a], d :: (ds ++ (t ++ x)), (by rw [h1]; rfl), hnil, (by simp), hsing,
            Or.inr ⟨d, _, rfl, h2 d (List.mem_cons_self _ _)⟩⟩

/-! ### The token array after the loop -/

theorem read_store_same (a : TokenArray) (i : Nat) (v : Option Nat) :
    (a.store i v).read i = some v := by
  simp [TokenArray.store, TokenArray.read]

theorem read_store_other (a : TokenArray) (i j : Nat) (v : Option Nat) (h : i ≠ j) :
    (a.store i v).read j = a.read j := by
  have hb : (i == j) = false := by simpa using h
  simp [TokenArray.store, TokenArray.read, List.find?, hb]

theorem read_grow (a : TokenArray) (n i : Nat) : (grow a n).read i = a.read i := by
  unfold grow; split <;> rfl

theorem grow_stores (a : TokenArray) (n : Nat) : (grow a n).stores = a.stores := by
  unfold grow; split <;> rfl

theorem grow_store_bufsize (a : TokenArray) (pos : Nat) (v : Option Nat)
    (h : pos < a.bufsize) : pos + 1 < (grow (a.store pos v) (pos + 1)).bufsize := by
  unfold grow TokenArray.store LSH_RL_BUFSIZE
  dsimp only
  split <;> dsimp only <;> omega

theorem grow_store_bufsize_le (a : TokenArray) (pos : Nat) (v : Option Nat)
    (h : a.bufsize ≤ pos + LSH_RL_BUFSIZE) :
    (grow (a.store pos v) (pos + 1)).bufsize ≤ pos + 1 + LSH_RL_BUFSIZE := by
  unfold grow TokenArray.store
  dsimp only
  split <;> dsimp only <;> omega

theorem fill_read_below (qs : List Nat) : ∀ (a : TokenArray) (pos i : Nat), i < pos →
    (fill a pos qs).read i = a.read i := by
  induction qs with
  | nil => intro a pos i h; exact read_store_other a pos i none (by omega)
  | cons q qs ih =>
    intro a pos i h
    rw [fill, ih _ _ _ (by omega), read_grow, read_store_other a pos i _ (by omega)]

theorem fill_read_ptr (qs : List Nat) : ∀ (a : TokenArray) (pos j q : Nat), qs[j]? = some q →
    (fill a pos qs).read (pos + j) = some (some q) := by
  induction qs with
  | nil => intro a pos j q h; simp at h
  | cons q0 qs ih =>
    intro a pos j q h
    cases j with
    | zero =>
      simp at h
      subst h
      change (fill (grow (a.store pos (some q0)) (pos + 1)) (pos + 1) qs).read pos = _
      rw [fill_read_below qs _ (pos + 1) pos (Nat.lt_succ_self pos),
        read_grow, read_store_same]
    | succ j =>
      simp at h
      rw [fill, show pos + (j + 1) = pos + 1 + j by omega]
      exact ih _ _ _ _ h

theorem fill_read_sentinel (qs : List Nat) : ∀ (a : TokenArray) (pos : Nat),
    (fill a pos qs).read (pos + qs.length) = some none := by
  induction qs with
  | nil => intro a pos; exact read_store_same a pos none
  | cons q0 qs ih =>
    intro a pos
    rw [fill, List.length_cons, show pos + (qs.length + 1) = pos + 1 + qs.length by omega]
    exact ih _ _

theorem fill_bufsize (qs : List Nat) : ∀ (a : TokenArray) (pos : Nat), pos < a.bufsize →
    pos + qs.length < (fill a pos qs).bufsize := by
  induction qs with
  | nil => intro a pos h; exact h
  | cons q0 qs ih =>
    intro a pos h
    have := ih _ _ (grow_store_bufsize a pos (some q0) h)
    rw [fill, List.length_cons]; omega

theorem fill_bufsize_le (qs : List Nat) : ∀ (a : TokenArray) (pos : Nat),
    a.bufsize ≤ pos + LSH_RL_BUFSIZE →
    (fill a pos qs).bufsize ≤ pos + qs.length + LSH_RL_BUFSIZE := by
  induction qs with
  | nil => intro a pos h; exact h
  | cons q0 qs ih =>
    intro a pos h
    have := ih _ _ (grow_store_bufsize_le a pos (some q0) h)
    rw [fill, List.length_cons]; omega

theorem fill_stores_inbounds (qs : List Nat) : ∀ (a : TokenArray) (pos : Nat),
    pos < a.bufsize → (∀ s ∈ a.stores, s.idx < s.cap) →
    ∀ s ∈ (fill a pos qs).stores, s.idx < s.cap := by
  induction qs with
  | nil =>
    intro a pos h ha s hs
    rcases List.mem_cons.mp hs with rfl | hs
    · exact h
    · exact ha s hs
  | cons q0 qs ih =>
    intro a pos h ha
    rw [fill]
    apply ih _ _ (grow_store_bufsize a pos (some q0) h)
    intro s hs
    rw [grow_stores] at hs
    rcases List.mem_cons.mp hs with rfl | hs
    · exact h
    · exact ha s hs

theorem fill_stores_idx (qs : List Nat) : ∀ (a : TokenArray) (pos : Nat),
    (fill a pos qs).stores.map (fun s => s.idx) =
      (List.range' pos (qs.length + 1)).reverse ++ a.stores.map (fun s => s.idx) := by
  induction qs with
  | nil => intro a pos; simp [fill, TokenArray.store]
  | cons q0 qs ih =>
    intro a pos
    rw [fill, ih, grow_stores]
    simp [TokenArray.store, List.range'_succ]

theorem readFrom_eq (A : TokenArray) (qs : List Nat) : ∀ (i fuel : Nat),
    (∀ j q, qs[j]? = some q → A.read (i + j) = some (some q)) →
    A.read (i + qs.length) = some none → qs.length < fuel →
    A.readFrom i fuel = qs := by
  induction qs with
  | nil =>
    intro i fuel _ h2 hf
    obtain ⟨f, rfl⟩ : ∃ f, fuel = f + 1 := ⟨fuel - 1, by simp at hf; omega⟩
    simp at h2
    simp [TokenArray.readFrom, h2]
  | cons q0 qs ih =>
    intro i fuel h1 h2 hf
    obtain ⟨f, rfl⟩ : ∃ f, fuel = f + 1 := ⟨fuel - 1, by simp at hf; omega⟩
    have h0 := h1 0 q0 (by simp)
    simp at h0
    simp only [TokenArray.readFrom, h0]
    congr 1
    apply ih
    · intro j q hj
      have := h1 (j + 1) q (by simpa using hj)
      rw [show i + 1 + j = i + (j + 1) by omega]; exact this
    · rw [show i + 1 + qs.length = i + (q0 :: qs).length by simp; omega]; exact h2
    · simp at hf; omega

theorem readFrom_fill (qs : List Nat) (cap : Nat) (h : 0 < cap) :
    (fill ⟨cap, []⟩ 0 qs).readFrom 0 (fill ⟨cap, []⟩ 0 qs).bufsize = qs := by
  apply readFrom_eq
  · intro j q hj
    have := fill_read_ptr qs ⟨cap, []⟩ 0 j q hj
    simpa using this
  · have := fill_read_sentinel qs ⟨cap, []⟩ 0
    simpa using this
  · have := fill_bufsize qs ⟨cap, []⟩ 0 h
    simpa using this

/-! ### The tokenizer loop -/

/-- One `strtok` call on a buffer whose unread part is `rest`: either nothing
but delimiters is left and the call returns `NULL`, or it returns the first
maximal run `t` of `rest` as a C string and leaves a buffer of the same shape
with a shorter unread part. -/
theorem strtok_step (pre rest junk : List Char) (m : StrtokMem) (str : Option Nat)
    (hbuf : m.buf = pre ++ (rest ++ NUL :: junk)) (hs : str.getD m.save = pre.length)
    (hnul : ∀ c ∈ rest, c ≠ NUL) :
    ((strtok m str LSH_TOK_DELIM).1 = none ∧ (strtok m str LSH_TOK_DELIM).2.buf = m.buf ∧
      maximalRuns rest = []) ∨
    ∃ tp t mid rest1,
      (strtok m str LSH_TOK_DELIM).1 = some tp ∧
      (strtok m str LSH_TOK_DELIM).2.buf = (pre ++ mid) ++ (rest1 ++ NUL :: junk) ∧
      (strtok m str LSH_TOK_DELIM).2.save = (pre ++ mid).length ∧
      (∀ c ∈ rest1, c ≠ NUL) ∧ rest1.length < rest.length ∧
      mid.length + rest1.length = rest.length ∧
      maximalRuns rest = t :: maximalRuns rest1 ∧
      ∀ x : List Char, x.length = rest1.length →
        cstr ((pre ++ mid) ++ (x ++ NUL :: junk)) tp = t := by
  rcases line_cases rest with hall | ⟨ds, t, x, hrest, hds, hne, ht, hx⟩
  · left
    obtain ⟨h1, h2⟩ := strtok_none pre rest junk m str hbuf hs hall
    refine ⟨h1, h2, ?_⟩
    have := maximalRuns_delims rest [] hall
    rw [List.append_nil] at this
    rw [this]; rfl
  · right
    subst hrest
    have htn : ∀ c ∈ t, isDelim c = false ∧ c ≠ NUL := fun c hc =>
      ⟨ht c hc, hnul c (by simp [hc])⟩
    have htn2 : ∀ c ∈ t, c ≠ NUL := fun c hc => (htn c hc).2
    have htl : 0 < t.length := List.length_pos.mpr hne
    rcases hx with rfl | ⟨d, r, rfl, hd⟩
    · -- the token runs to the end of the string
      have hb : m.buf = pre ++ (ds ++ (t ++ NUL :: junk)) := by
        rw [hbuf]; simp
      have hk := strtok_some pre ds t junk NUL m str hb hs hds htn hne (Or.inl rfl)
      rw [if_pos rfl] at hk
      refine ⟨pre.length + ds.length, t, ds ++ t, [], by rw [hk], ?_, ?_, by simp, ?_, by simp,
        ?_, ?_⟩
      · rw [hk, hb]; simp
      · rw [hk]; simp; omega
      · simp; omega
      · rw [List.append_nil, maximalRuns_delims _ _ hds, maximalRuns_token_end t ht hne,
          maximalRuns_nil]
      · intro y hy
        have hy0 : y = [] := List.length_eq_zero.mp hy
        subst hy0
        have hB : (pre ++ (ds ++ t)) ++ ([] ++ NUL :: junk) = (pre ++ ds) ++ (t ++ NUL :: junk) := by
          simp
        rw [hB]
        exact cstr_append (pre ++ ds) t junk _ (by simp) htn2
    · -- the token is followed by the delimiter `d`
      have hb : m.buf = pre ++ (ds ++ (t ++ d :: (r ++ NUL :: junk))) := by
        rw [hbuf]; simp
      have hk := strtok_some pre ds t (r ++ NUL :: junk) d m str hb hs hds htn hne (Or.inr hd)
      rw [if_neg (ne_NUL_of_isDelim hd)] at hk
      refine ⟨pre.length + ds.length, t, ds ++ (t ++ [NUL]), r, by rw [hk], ?_, ?_,
        fun c hc => hnul c (by simp [hc]), ?_, ?_, ?_, ?_⟩
      · rw [hk]; simp
      · rw [hk]; simp; omega
      · simp; omega
      · simp; omega
      · rw [maximalRuns_delims _ _ hds, maximalRuns_token_cons t r d ht hne hd]
      · intro y _
        have hB : (pre ++ (ds ++ (t ++ [NUL]))) ++ (y ++ NUL :: junk)
            = (pre ++ ds) ++ (t ++ NUL :: (y ++ NUL :: junk)) := by simp
        rw [hB]
        exact cstr_append (pre ++ ds) t _ _ (by simp) htn2

theorem split_loop_none (os : OS W) (p : Proc W) (fuel : Nat) (m : StrtokMem)
    (a : TokenArray) (pos : Nat) :
    split_loop os p fuel m a pos none = .ret ⟨a.store pos none, m.buf, pos⟩ p := by
  cases fuel <;> rfl

/-- One turn of the loop when allocation succeeds and `position++` stays in
range: undefined when the capacity must grow past `INT_MAX`, else the store,
the capacity check and the next `strtok` call. -/
theorem split_loop_step (os : OS W) (p : Proc W) (hal : ∀ n, os.allocOk n = true)
    (fuel : Nat) (m : StrtokMem) (a : TokenArray) (pos tp : Nat) (hpos : pos + 1 ≤ INT_MAX) :
    split_loop os p (fuel + 1) m a pos (some tp) =
      if pos + 1 ≥ a.bufsize ∧ INT_MAX < a.bufsize + LSH_RL_BUFSIZE then .undefined
      else
        split_loop os p fuel (strtok m none LSH_TOK_DELIM).2
          (grow (a.store pos (some tp)) (pos + 1)) (pos + 1)
          (strtok m none LSH_TOK_DELIM).1 := by
  rw [split_loop]
  simp only [hal, if_true, grow, TokenArray.store]
  rw [if_neg (by omega)]
  by_cases h1 : pos + 1 ≥ a.bufsize
  · by_cases h2 : INT_MAX < a.bufsize + LSH_RL_BUFSIZE
    · rw [if_pos h1, if_pos h2, if_pos ⟨h1, h2⟩]
    · rw [if_pos h1, if_neg h2, if_neg (by tauto), if_pos h1]
  · rw [if_neg h1, if_neg (by tauto), if_neg h1]

/-- The tokenizer loop, entered after a `strtok` call on a buffer whose unread
part is `rest`, with fewer tokens to come than the `int` counters can take: it
returns, having stored one pointer per maximal run of `rest`, each addressing
that run as a C string in the final buffer. -/
theorem split_loop_spec (os : OS W) (p : Proc W) (hal : ∀ n, os.allocOk n = true)
    (junk : List Char) :
    ∀ (fuel : Nat) (rest pre : List Char) (m : StrtokMem) (a : TokenArray) (pos : Nat)
      (str : Option Nat),
      m.buf = pre ++ (rest ++ NUL :: junk) → str.getD m.save = pre.length →
      (∀ c ∈ rest, c ≠ NUL) → rest.length ≤ fuel →
      a.bufsize ≤ pos + LSH_RL_BUFSIZE → pos + (maximalRuns rest).length < TOKEN_LIMIT →
      ∃ ptrs rest1,
        split_loop os p fuel (strtok m str LSH_TOK_DELIM).2 a pos
            (strtok m str LSH_TOK_DELIM).1 =
          .ret ⟨fill a pos ptrs, pre ++ (rest1 ++ NUL :: junk), pos + ptrs.length⟩ p ∧
        rest1.length = rest.length ∧
        ptrs.map (cstr (pre ++ (rest1 ++ NUL :: junk))) = maximalRuns rest := by
  intro fuel
  induction fuel with
  | zero =>
    intro rest pre m a pos str hbuf hs hnul hlen _ _
    have hr : rest = [] := List.length_eq_zero.mp (Nat.le_zero.mp hlen)
    subst hr
    obtain ⟨h1, h2⟩ := strtok_none pre [] junk m str hbuf hs (by simp)
    refine ⟨[], [], ?_, rfl, rfl⟩
    rw [h1, split_loop_none, h2, hbuf]; rfl
  | succ fuel ih =>
    intro rest pre m a pos str hbuf hs hnul hlen hcap hcount
    rcases strtok_step pre rest junk m str hbuf hs hnul with
      ⟨h1, h2, h3⟩ | ⟨tp, t, mid, rest1, h1, h2, h3, h4, h5, h6, h7, h8⟩
    · refine ⟨[], rest, ?_, rfl, by rw [h3]; rfl⟩
      rw [h1, split_loop_none, h2, hbuf]; rfl
    · rw [h7, List.length_cons] at hcount
      have hpos : pos + 1 ≤ INT_MAX := by
        simp only [TOKEN_LIMIT, INT_MAX] at *; omega
      have hgrow : ¬ (pos + 1 ≥ a.bufsize ∧ INT_MAX < a.bufsize + LSH_RL_BUFSIZE) := by
        simp only [TOKEN_LIMIT, INT_MAX, LSH_RL_BUFSIZE] at *; omega
      obtain ⟨ptrs, rest2, e1, e2, e3⟩ :=
        ih rest1 (pre ++ mid) (strtok m str LSH_TOK_DELIM).2
          (grow (a.store pos (some tp)) (pos + 1)) (pos + 1) none h2 h3 h4 (by omega)
          (grow_store_bufsize_le a pos (some tp) hcap) (by omega)
      refine ⟨tp :: ptrs, mid ++ rest2, ?_, ?_, ?_⟩
      · rw [h1, split_loop_step os p hal fuel _ a pos tp hpos, if_neg hgrow, e1]
        simp [fill, Nat.add_assoc, Nat.add_comm 1]
      · simp; omega
      · have hB : pre ++ (mid ++ rest2 ++ NUL :: junk) = (pre ++ mid) ++ (rest2 ++ NUL :: junk) := by
          simp
        rw [List.map_cons, h7, hB, e3, h8 rest2 e2]

/-- The tokenizer loop on a line with `TOKEN_LIMIT` tokens or more still to
come runs into signed overflow: when token number `TOKEN_LIMIT` has been
stored the capacity, then at `TOKEN_LIMIT`, is to grow past `INT_MAX`. -/
theorem split_loop_overflow (os : OS W) (p : Proc W) (hal : ∀ n, os.allocOk n = true)
    (junk : List Char) :
    ∀ (fuel : Nat) (rest pre : List Char) (m : StrtokMem) (a : TokenArray) (pos : Nat)
      (str : Option Nat),
      m.buf = pre ++ (rest ++ NUL :: junk) → str.getD m.save = pre.length →
      (∀ c ∈ rest, c ≠ NUL) → rest.length ≤ fuel →
      pos < a.bufsize → a.bufsize % 1024 = 0 → a.bufsize ≤ TOKEN_LIMIT →
      TOKEN_LIMIT ≤ pos + (maximalRuns rest).length →
      split_loop os p fuel (strtok m str LSH_TOK_DELIM).2 a pos
        (strtok m str LSH_TOK_DELIM).1 = .undefined := by
  intro fuel
  induction fuel with
  | zero =>
    intro rest pre m a pos str _ _ _ hlen hpa _ hlim hcount
    have hr : rest = [] := List.length_eq_zero.mp (Nat.le_zero.mp hlen)
    subst hr
    rw [maximalRuns_nil] at hcount
    simp only [List.length_nil] at hcount
    omega
  | succ fuel ih =>
    intro rest pre m a pos str hbuf hs hnul hlen hpa hmod hlim hcount
    rcases strtok_step pre rest junk m str hbuf hs hnul with
      ⟨_, _, h3⟩ | ⟨tp, t, mid, rest1, h1, h2, h3, h4, h5, h6, h7, _⟩
    · rw [h3] at hcount
      simp only [List.length_nil] at hcount
      omega
    · rw [h7, List.length_cons] at hcount
      have hpos : pos + 1 ≤ INT_MAX := by
        simp only [TOKEN_LIMIT, INT_MAX] at *; omega
      rw [h1, split_loop_step os p hal fuel _ a pos tp hpos]
      by_cases hg : pos + 1 ≥ a.bufsize ∧ INT_MAX < a.bufsize + LSH_RL_BUFSIZE
      · rw [if_pos hg]
      · rw [if_neg hg]
        have hb : (grow (a.store pos (some tp)) (pos + 1)).bufsize =
            if pos + 1 ≥ a.bufsize then a.bufsize + LSH_RL_BUFSIZE else a.bufsize := by
          unfold grow TokenArray.store
          dsimp only
          split <;> rfl
        apply ih rest1 (pre ++ mid) _ _ (pos + 1) none h2 h3 h4 (by omega)
        · rw [hb]; simp only [LSH_RL_BUFSIZE]; split <;> omega
        · rw [hb]; simp only [LSH_RL_BUFSIZE]; split <;> omega
        · rw [hb]
          simp only [TOKEN_LIMIT, INT_MAX, LSH_RL_BUFSIZE] at *
          split <;> omega
        · omega

/-! ### Properties of the maximal runs -/

theorem filter_delims (ds : List Char) (hds : ∀ c ∈ ds, isDelim c = true) :
    ds.filter (fun c => !isDelim c) = [] := by
  induction ds with
  | nil => rfl
  | cons d ds ih =>
    rw [List.filter_cons, ih (fun c hc => hds c (List.mem_cons_of_mem _ hc))]
    simp [hds d (List.mem_cons_self _ _)]

theorem filter_token (t : List Char) (ht : ∀ c ∈ t, isDelim c = false) :
    t.filter (fun c => !isDelim c) = t := by
  induction t with
  | nil => rfl
  | cons d t ih =>
    rw [List.filter_cons, ih (fun c hc => ht c (List.mem_cons_of_mem _ hc))]
    simp [ht d (List.mem_cons_self _ _)]

theorem maximalRuns_props : ∀ (n : Nat) (line : List Char), line.length ≤ n →
    (∀ t ∈ maximalRuns line, t ≠ [] ∧ ∀ c ∈ t, isDelim c = false) ∧
    (maximalRuns line).flatten = line.filter (fun c => !isDelim c) ∧
    (maximalRuns line).length ≤ line.length := by
  intro n
  induction n with
  | zero =>
    intro line h
    have : line = [] := List.length_eq_zero.mp (Nat.le_zero.mp h)
    subst this
    simp [maximalRuns_nil]
  | succ n ih =>
    intro line h
    rcases line_cases line with hall | ⟨ds, t, x, rfl, hds, hne, ht, hx⟩
    · have h0 := maximalRuns_delims line [] hall
      rw [List.append_nil] at h0
      rw [h0, maximalRuns_nil, filter_delims line hall]
      simp
    · have htl : 0 < t.length := List.length_pos.mpr hne
      rcases hx with rfl | ⟨d, r, rfl, hd⟩
      · rw [List.append_nil, maximalRuns_delims _ _ hds, maximalRuns_token_end t ht hne,
          List.filter_append, filter_delims ds hds, filter_token t ht]
        refine ⟨?_, by simp, by simp; omega⟩
        intro u hu
        rw [List.mem_singleton.mp hu]
        exact ⟨hne, ht⟩
      · obtain ⟨i1, i2, i3⟩ := ih r (by simp at h; omega)
        rw [maximalRuns_delims _ _ hds, maximalRuns_token_cons t r d ht hne hd,
          List.filter_append, List.filter_append, filter_delims ds hds, filter_token t ht,
          List.filter_cons, List.flatten_cons, i2]
        refine ⟨?_, by simp [hd], by simp; omega⟩
        intro u hu
        rcases List.mem_cons.mp hu with rfl | hu
        · exact ⟨hne, ht⟩
        · exact i1 u hu

theorem cline_spec (line : List Char) :
    (∀ c ∈ cline line, c ≠ NUL) ∧ ∃ junk, line ++ [NUL] = cline line ++ NUL :: junk := by
  induction line with
  | nil => exact ⟨by simp [cline], [], rfl⟩
  | cons a line ih =>
    by_cases ha : a = NUL
    · subst ha
      exact ⟨by simp [cline], line ++ [NUL], by simp [cline]⟩
    · obtain ⟨h1, junk, h2⟩ := ih
      have hc : cline (a :: line) = a :: cline line := by
        simp [cline, List.takeWhile_cons, ha]
      rw [hc]
      refine ⟨?_, junk, by rw [List.cons_append, h2]; rfl⟩
      intro c hc
      rcases List.mem_cons.mp hc with rfl | hc
      · exact ha
      · exact h1 c hc

theorem cline_length_le (line : List Char) : (cline line).length ≤ line.length := by
  induction line with
  | nil => simp [cline]
  | cons a line ih =>
    unfold cline at ih ⊢
    rw [List.takeWhile_cons]
    split
    · simp only [List.length_cons]; omega
    · simp

theorem cline_eq_self (line : List Char) (h : NUL ∉ line) : cline line = line := by
  induction line with
  | nil => rfl
  | cons a line ih =>
    have ha : a ≠ NUL := fun e => h (by simp [e])
    have hl : NUL ∉ line := fun e => h (List.mem_cons_of_mem _ e)
    have := ih hl
    unfold cline at this ⊢
    rw [List.takeWhile_cons]
    simp [ha, this]

/-- The outcome of `lsh_split_line` in closed form, for a line with fewer
than `TOKEN_LIMIT` tokens. -/
theorem lsh_split_line_eq (os : OS W) (line : List Char) (p : Proc W)
    (hal : ∀ n, os.allocOk n = true)
    (hcount : (maximalRuns (cline line)).length < TOKEN_LIMIT) :
    ∃ ptrs buf,
      lsh_split_line os line p =
        .ret ⟨fill ⟨LSH_RL_BUFSIZE, []⟩ 0 ptrs, buf, ptrs.length⟩ p ∧
      ptrs.map (cstr buf) = maximalRuns (cline line) := by
  obtain ⟨hnul, junk, hj⟩ := cline_spec line
  obtain ⟨ptrs, rest1, e1, _, e3⟩ :=
    split_loop_spec os p hal junk (line.length + 1) (cline line) [] ⟨line ++ [NUL], 0⟩
      ⟨LSH_RL_BUFSIZE, []⟩ 0 (some 0) (by simpa using hj) rfl hnul
      (Nat.le_succ_of_le (cline_length_le line)) (by simp) (by simpa using hcount)
  refine ⟨ptrs, rest1 ++ NUL :: junk, ?_, by simpa using e3⟩
  unfold lsh_split_line
  simp only [hal, if_true]
  rw [e1]
  simp

/-- On a line with `TOKEN_LIMIT` tokens or more `lsh_split_line` runs into
signed overflow. -/
theorem lsh_split_line_overflow (os : OS W) (line : List Char) (p : Proc W)
    (hal : ∀ n, os.allocOk n = true)
    (hcount : TOKEN_LIMIT ≤ (maximalRuns (cline line)).length) :
    lsh_split_line os line p = .undefined := by
  obtain ⟨hnul, junk, hj⟩ := cline_spec line
  have h := split_loop_overflow os p hal junk (line.length + 1) (cline line) []
    ⟨line ++ [NUL], 0⟩ ⟨LSH_RL_BUFSIZE, []⟩ 0 (some 0) (by simpa using hj) rfl hnul
    (Nat.le_succ_of_le (cline_length_le line)) (by decide) (by decide) (by decide)
    (by simpa using hcount)
  unfold lsh_split_line
  simp only [hal, if_true]
  exact h

theorem tokenLine_succ (n : Nat) :
    tokenLine (n + 1) = "a".toList ++ Char.ofNat 32 :: tokenLine n := by
  simp [tokenLine, List.replicate_succ]

theorem tokenLine_no_NUL (n : Nat) : NUL ∉ tokenLine n := by
  induction n with
  | zero => simp [tokenLine]
  | succ n ih =>
    rw [tokenLine_succ]
    intro h
    rcases List.mem_append.mp h with h | h
    · exact absurd h (by decide)
    · rcases List.mem_cons.mp h with h | h
      · exact absurd h (by decide)
      · exact ih h

theorem maximalRuns_tokenLine (n : Nat) :
    maximalRuns (tokenLine n) = List.replicate n "a".toList := by
  induction n with
  | zero => rfl
  | succ n ih =>
    rw [tokenLine_succ, maximalRuns_token_cons "a".toList (tokenLine n) (Char.ofNat 32)
      (by decide) (by decide) (by decide), ih, List.replicate_succ]

theorem argv_fill (ptrs : List Nat) (buf : List Char) (n : Nat) :
    argv ⟨fill ⟨LSH_RL_BUFSIZE, []⟩ 0 ptrs, buf, n⟩ = ptrs.map (cstr buf) := by
  unfold argv
  rw [readFrom_fill ptrs LSH_RL_BUFSIZE (by decide)]

/-! ## Lemmas on dispatch and launch -/

theorem strcmp_eq_zero (a b : List Char) : strcmp a b = 0 ↔ a = b := by
  induction a generalizing b with
  | nil => cases b <;> simp [strcmp]
  | cons x a ih =>
    cases b with
    | nil => simp [strcmp]
    | cons y b =>
      by_cases h : x = y
      · simp [strcmp, h, ih]
      · rw [strcmp, if_neg h]
        constructor
        · intro e
          split at e <;> exact absurd e (by decide)
        · intro e
          exact absurd (List.cons.inj e).1 h

/-- The `for` loop of `lsh_execute` unrolled over the eight table entries. -/
theorem lsh_execute_cons (os : OS W) (fuel : Nat) (a : List Char) (rest : List (List Char))
    (p : Proc W) :
    lsh_execute os fuel (a :: rest) p =
      if a = "cd".toList then lsh_cd os (a :: rest) p
      else if a = "help".toList then lsh_help os (a :: rest) p
      else if a = "exit".toList then lsh_exit os (a :: rest) p
      else if a = "mkdir".toList then lsh_mkdir os (a :: rest) p
      else if a = "ls".toList then lsh_ls os (a :: rest) p
      else if a = "pwd".toList then lsh_pwd os (a :: rest) p
      else if a = "touch".toList then lsh_touch os (a :: rest) p
      else if a = "rmdir".toList then lsh_rmdir os (a :: rest) p
      else lsh_launch os fuel (a :: rest) p := by
  simp only [lsh_execute, lsh_num_builtins, builtin_str, List.length_cons, List.length_nil,
    lsh_execute_loop, List.headD_cons, strcmp_eq_zero, builtin_func]
  rfl

/-! ### Builtins and the launcher return "continue" -/

theorem lsh_cd_ret (os : OS W) (args : List (List Char)) (p : Proc W) :
    ∃ q, lsh_cd os args p = .ret 1 q := by
  unfold lsh_cd; split
  · exact ⟨_, rfl⟩
  · dsimp only; split <;> exact ⟨_, rfl⟩

theorem lsh_mkdir_ret (os : OS W) (args : List (List Char)) (p : Proc W) :
    ∃ q, lsh_mkdir os args p = .ret 1 q := by
  unfold lsh_mkdir; split
  · exact ⟨_, rfl⟩
  · dsimp only; split <;> exact ⟨_, rfl⟩

theorem lsh_rmdir_ret (os : OS W) (args : List (List Char)) (p : Proc W) :
    ∃ q, lsh_rmdir os args p = .ret 1 q := by
  unfold lsh_rmdir; split
  · exact ⟨_, rfl⟩
  · dsimp only; split <;> exact ⟨_, rfl⟩

theorem lsh_touch_ret (os : OS W) (args : List (List Char)) (p : Proc W) :
    ∃ q, lsh_touch os args p = .ret 1 q := by
  unfold lsh_touch; split
  · exact ⟨_, rfl⟩
  · dsimp only; split <;> exact ⟨_, rfl⟩

theorem lsh_ls_ret (os : OS W) (args : List (List Char)) (p : Proc W) :
    ∃ q, lsh_ls os args p = .ret 1 q := by
  unfold lsh_ls; split
  · exact ⟨_, rfl⟩
  · dsimp only; split <;> exact ⟨_, rfl⟩

theorem lsh_pwd_ret (os : OS W) (args : List (List Char)) (p : Proc W) :
    ∃ q, lsh_pwd os args p = .ret 1 q := by
  unfold lsh_pwd; dsimp only; split <;> exact ⟨_, rfl⟩

theorem lsh_help_ret (os : OS W) (args : List (List Char)) (p : Proc W) :
    ∃ q, lsh_help os args p = .ret 1 q := ⟨_, rfl⟩

/-- Whenever `lsh_launch` returns, it returns 1. -/
theorem lsh_launch_ret_one (os : OS W) (fuel : Nat) (args : List (List Char)) (p : Proc W)
    (s : Int) (q : Proc W) (h : lsh_launch os fuel args p = .ret s q) : s = 1 := by
  unfold lsh_launch at h
  dsimp only at h
  split at h
  · split at h
    · cases h
    · split at h <;> cases h
  · split at h
    · cases h; rfl
    · split at h
      · cases h
      · cases h; rfl

/-- The wait loop ends at the first report of an exited or killed child. -/
theorem wait_loop_spec (os : OS W) (pid : Int) : ∀ (k fuel : Nat) (w : W),
    (∀ j, j < k → WIFEXITED (waitReport os pid j w) = false ∧
      WIFSIGNALED (waitReport os pid j w) = false) →
    (WIFEXITED (waitReport os pid k w) = true ∨ WIFSIGNALED (waitReport os pid k w) = true) →
    k < fuel → wait_loop os pid fuel w = some (waitWorld os pid (k + 1) w) := by
  intro k
  induction k with
  | zero =>
    intro fuel w _ hk hf
    obtain ⟨f, rfl⟩ : ∃ f, fuel = f + 1 := ⟨fuel - 1, by omega⟩
    have hk2 : (!WIFEXITED (os.waitpid pid WUNTRACED w).2.1 &&
        !WIFSIGNALED (os.waitpid pid WUNTRACED w).2.1) = false := by
      simp only [waitReport, waitWorld] at hk
      rcases hk with h | h <;> simp [h]
    simp only [wait_loop, hk2]
    rfl
  | succ k ih =>
    intro fuel w hpre hk hf
    obtain ⟨f, rfl⟩ : ∃ f, fuel = f + 1 := ⟨fuel - 1, by omega⟩
    have h0 := hpre 0 (Nat.succ_pos k)
    have hk2 : (!WIFEXITED (os.waitpid pid WUNTRACED w).2.1 &&
        !WIFSIGNALED (os.waitpid pid WUNTRACED w).2.1) = true := by
      simp only [waitReport, waitWorld] at h0
      simp [h0.1, h0.2]
    simp only [wait_loop, hk2, if_true]
    exact ih f _ (fun j hj => hpre (j + 1) (by omega)) hk (by omega)

theorem lsh_launch_parent (os : OS W) (fuel : Nat) (args : List (List Char)) (p : Proc W)
    (k : Nat) (hfork : 0 < (os.fork p.sys).1)
    (hpre : ∀ j, j < k →
      WIFEXITED (waitReport os (os.fork p.sys).1 j (os.fork p.sys).2) = false ∧
      WIFSIGNALED (waitReport os (os.fork p.sys).1 j (os.fork p.sys).2) = false)
    (hk : WIFEXITED (waitReport os (os.fork p.sys).1 k (os.fork p.sys).2) = true ∨
      WIFSIGNALED (waitReport os (os.fork p.sys).1 k (os.fork p.sys).2) = true)
    (hfuel : k < fuel) :
    lsh_launch os fuel args p =
      .ret 1 { p with sys := waitWorld os (os.fork p.sys).1 (k + 1) (os.fork p.sys).2 } := by
  unfold lsh_launch
  dsimp only
  rw [if_neg (by omega), if_neg (by omega),
    wait_loop_spec os _ k fuel _ hpre hk hfuel]

theorem lsh_launch_fork_failed (os : OS W) (fuel : Nat) (args : List (List Char)) (p : Proc W)
    (hfork : (os.fork p.sys).1 < 0) :
    lsh_launch os fuel args p = .ret 1 (perror os "lsh" { p with sys := (os.fork p.sys).2 }) := by
  unfold lsh_launch
  dsimp only
  rw [if_neg (by omega), if_pos hfork]

/-! ### The directory-tree model -/

theorem walkDirs_mono (nodes : List (List (List Char) × NodeKind))
    (x : List (List Char) × NodeKind) (cs : List (List Char)) :
    ∀ (here r : List (List Char)), walkDirs nodes here cs = .ok r →
      walkDirs (x :: nodes) here cs = .ok r := by
  induction cs with
  | nil => intro here r h; exact h
  | cons c cs ih =>
    intro here r h
    rw [walkDirs] at h ⊢
    by_cases h1 : c = ".".toList
    · rw [if_pos h1] at h ⊢
      exact ih _ _ h
    · rw [if_neg h1] at h ⊢
      by_cases h2 : c = "..".toList
      · rw [if_pos h2] at h ⊢
        exact ih _ _ h
      · rw [if_neg h2] at h ⊢
        by_cases h3 : nodes.contains (here ++ [c], NodeKind.dir) = true
        · rw [if_pos h3] at h
          have h4 : (x :: nodes).contains (here ++ [c], NodeKind.dir) = true := by
            rw [List.contains_cons, h3, Bool.or_true]
          rw [if_pos h4]
          exact ih _ _ h
        · rw [if_neg h3] at h
          cases h

theorem resolveTarget_mono (nodes : List (List (List Char) × NodeKind))
    (x : List (List Char) × NodeKind) (cwd : List (List Char)) (name : List Char)
    (parent : List (List Char)) (nm : List Char)
    (h : resolveTarget nodes cwd name = .ok (PathTarget.entry parent nm)) :
    resolveTarget (x :: nodes) cwd name = .ok (PathTarget.entry parent nm) := by
  unfold resolveTarget at h ⊢
  by_cases h0 : name = []
  · rw [if_pos h0] at h; cases h
  · rw [if_neg h0] at h ⊢
    cases hl : (pathComponents name).getLast? with
    | none => rw [hl] at h; cases h
    | some last =>
      rw [hl] at h
      dsimp only at h ⊢
      cases hw : walkDirs nodes (if name.head? = some (Char.ofNat 47) then [] else cwd)
          (pathComponents name).dropLast with
      | error e => rw [hw] at h; cases h
      | ok here =>
        rw [hw] at h
        rw [walkDirs_mono nodes x _ _ here hw]
        exact h

theorem fsRmdir_keeps (w : FsWorld) (foo : List Char) (h : w.isEmptyDir foo = false) :
    (fsRmdir foo w).2.nodes = w.nodes ∧ (fsRmdir foo w).2.cwd = w.cwd := by
  unfold fsRmdir
  unfold FsWorld.isEmptyDir at h
  cases hr : resolveTarget w.nodes w.cwd foo with
  | error e => exact ⟨rfl, rfl⟩
  | ok t =>
    cases t with
    | root => exact ⟨rfl, rfl⟩
    | dot here => exact ⟨rfl, rfl⟩
    | dotdot here => exact ⟨rfl, rfl⟩
    | entry parent nm =>
      rw [hr] at h
      dsimp only at h ⊢
      by_cases hc : w.nodes.contains (parent ++ [nm], NodeKind.dir) = true
      · by_cases hch : hasChild w.nodes (parent ++ [nm]) = true
        · rw [if_neg (by rw [hc]; decide), if_pos hch]
          exact ⟨rfl, rfl⟩
        · rw [hc] at h
          simp at h hch
          rw [h] at hch
          exact absurd hch (by decide)
      · have hc2 : w.nodes.contains (parent ++ [nm], NodeKind.dir) = false := by
          simpa using hc
        rw [if_pos (by rw [hc2]; decide)]
        exact ⟨rfl, rfl⟩

theorem dropLast_append_singleton (q : List (List Char)) (c : List Char) :
    (q ++ [c]).dropLast = q := by
  simp

theorem fsMkdir_fsRmdir (w : FsWorld) (foo : List Char) (mode : Nat)
    (hwf : w.wellFormed = true) (h : w.isEmptyDir foo = false) :
    (fsRmdir foo (fsMkdir foo mode w).2).2.nodes = w.nodes ∧
    (fsRmdir foo (fsMkdir foo mode w).2).2.cwd = w.cwd := by
  have hfail : ∀ e : Nat, (fsRmdir foo { w with errno := e }).2.nodes = w.nodes ∧
      (fsRmdir foo { w with errno := e }).2.cwd = w.cwd := fun e =>
    fsRmdir_keeps { w with errno := e } foo h
  unfold fsMkdir
  cases hr : resolveTarget w.nodes w.cwd foo with
  | error e => exact hfail _
  | ok t =>
    cases t with
    | root => exact hfail _
    | dot here => exact hfail _
    | dotdot here => exact hfail _
    | entry parent nm =>
      dsimp only
      by_cases hex : existsAt w.nodes (parent ++ [nm]) = true
      · rw [if_pos hex]; exact hfail _
      · rw [if_neg hex]
        by_cases hpar : (!isDirAt w.nodes parent) = true
        · rw [if_pos hpar]; exact hfail _
        · rw [if_neg hpar]
          have hq0 : parent ++ [nm] ≠ [] := by simp
          have hnot : ∀ k, (parent ++ [nm], k) ∉ w.nodes := by
            intro k hk
            apply hex
            simp only [existsAt, Bool.or_eq_true, decide_eq_true_eq, List.any_eq_true]
            exact Or.inr ⟨(parent ++ [nm], k), hk, by simp⟩
          have hch : hasChild ((parent ++ [nm], NodeKind.dir) :: w.nodes) (parent ++ [nm])
              = false := by
            simp only [hasChild, List.any_cons, Bool.or_eq_false_iff, Bool.and_eq_false_iff,
              List.any_eq_false]
            refine ⟨Or.inr (by simp), ?_⟩
            intro n hn
            simp only [FsWorld.wellFormed, List.all_eq_true, Bool.and_eq_true] at hwf
            have hn2 := (hwf n hn).2
            intro hcon
            simp only [Bool.and_eq_true, decide_eq_true_eq] at hcon
            rw [hcon.2] at hn2
            simp only [isDirAt, Bool.or_eq_true, decide_eq_true_eq] at hn2
            rcases hn2 with e | e
            · exact hq0 e
            · exact hnot NodeKind.dir (by simpa using e)
          unfold fsRmdir
          dsimp only
          rw [resolveTarget_mono w.nodes _ w.cwd foo parent nm hr]
          dsimp only
          simp only [List.contains_cons, beq_self_eq_true, Bool.true_or, Bool.not_true,
            Bool.false_eq_true, if_false, hch]
          simp

theorem lsh_mkdir_sys (os : OS W) (a foo : List Char) (p : Proc W) :
    ∃ q, lsh_mkdir os [a, foo] p = .ret 1 q ∧ q.sys = (os.mkdir foo 0o755 p.sys).2 := by
  unfold lsh_mkdir
  simp only [List.getElem?_cons_succ, List.getElem?_cons_zero]
  split <;> exact ⟨_, rfl, rfl⟩

theorem lsh_rmdir_sys (os : OS W) (a foo : List Char) (p : Proc W) :
    ∃ q, lsh_rmdir os [a, foo] p = .ret 1 q ∧ q.sys = (os.rmdir foo p.sys).2 := by
  unfold lsh_rmdir
  simp only [List.getElem?_cons_succ, List.getElem?_cons_zero]
  split <;> exact ⟨_, rfl, rfl⟩

/-! ### Dispatch under an operating system that leaves the input alone -/

/-- Every builtin other than `exit` returns 1. -/
theorem lsh_execute_builtin_ret (os : OS W) (fuel : Nat) (a : List Char)
    (rest : List (List Char)) (p : Proc W) (hin : a ∈ builtin_str)
    (hne : a ≠ "exit".toList) : ∃ q, lsh_execute os fuel (a :: rest) p = .ret 1 q := by
  simp only [builtin_str, List.mem_cons, List.mem_singleton, List.not_mem_nil,
    or_false] at hin
  rw [lsh_execute_cons]
  rcases hin with rfl | rfl | rfl | rfl | rfl | rfl | rfl | rfl
  · exact lsh_cd_ret os ("cd".toList :: rest) p
  · exact lsh_help_ret os ("help".toList :: rest) p
  · exact absurd rfl hne
  · exact lsh_mkdir_ret os ("mkdir".toList :: rest) p
  · exact lsh_ls_ret os ("ls".toList :: rest) p
  · exact lsh_pwd_ret os ("pwd".toList :: rest) p
  · exact lsh_touch_ret os ("touch".toList :: rest) p
  · exact lsh_rmdir_ret os ("rmdir".toList :: rest) p

theorem lsh_execute_not_builtin (os : OS W) (fuel : Nat) (a : List Char)
    (rest : List (List Char)) (p : Proc W) (h : a ∉ builtin_str) :
    lsh_execute os fuel (a :: rest) p = lsh_launch os fuel (a :: rest) p := by
  simp only [builtin_str, List.mem_cons, List.mem_singleton, not_or, List.not_mem_nil,
    or_false] at h
  obtain ⟨h1, h2, h3, h4, h5, h6, h7, h8⟩ := h
  rw [lsh_execute_cons, if_neg h1, if_neg h2, if_neg h3, if_neg h4, if_neg h5, if_neg h6,
    if_neg h7, if_neg h8]

/-- Whenever `lsh_execute` returns, the status is 0 for `exit` and 1 otherwise. -/
theorem lsh_execute_ret (os : OS W) (fuel : Nat) (args : List (List Char)) (p : Proc W)
    (s : Int) (q : Proc W) (h : lsh_execute os fuel args p = .ret s q) :
    (s = 0 ↔ args.head? = some "exit".toList) ∧ (s = 0 ∨ s = 1) := by
  cases args with
  | nil =>
    simp only [lsh_execute] at h
    cases h
    simp
  | cons a rest =>
    by_cases he : a = "exit".toList
    · subst he
      rw [lsh_execute_cons] at h
      have h2 : lsh_exit os ("exit".toList :: rest) p = .ret s q := h
      simp only [lsh_exit] at h2
      cases h2
      simp
    · have hs : s = 1 := by
        by_cases hin : a ∈ builtin_str
        · obtain ⟨q2, e⟩ := lsh_execute_builtin_ret os fuel a rest p hin he
          rw [e] at h
          cases h; rfl
        · rw [lsh_execute_not_builtin os fuel a rest p hin] at h
          exact lsh_launch_ret_one os fuel _ p s q h
      subst hs
      exact ⟨⟨fun h0 => absurd h0 (by decide), fun h0 => absurd (Option.some.inj h0) he⟩,
        Or.inr rfl⟩


theorem isDelim_iff (c : Char) : isDelim c = false ↔ c ∉ LSH_TOK_DELIM := by
  simp [isDelim]


theorem isDelim_true_iff (c : Char) : isDelim c = true ↔ c ∈ LSH_TOK_DELIM := by
  simp [isDelim]

theorem maximalRuns_isRunSplit : ∀ (n : Nat) (line : List Char), line.length ≤ n →
    IsRunSplit line (maximalRuns line) := by
  intro n
  induction n with
  | zero =>
    intro line h
    have : line = [] := List.length_eq_zero.mp (Nat.le_zero.mp h)
    subst this
    exact IsRunSplit.none [] (by simp)
  | succ n ih =>
    intro line h
    rcases line_cases line with hall | ⟨ds, t, x, rfl, hds, hne, ht, hx⟩
    · have h0 := maximalRuns_delims line [] hall
      rw [List.append_nil] at h0
      rw [h0, maximalRuns_nil]
      exact IsRunSplit.none line (fun c hc => (isDelim_true_iff c).mp (hall c hc))
    · have htl : 0 < t.length := List.length_pos.mpr hne
      have hds2 : ∀ c ∈ ds, c ∈ LSH_TOK_DELIM := fun c hc => (isDelim_true_iff c).mp (hds c hc)
      have ht2 : ∀ c ∈ t, c ∉ LSH_TOK_DELIM := fun c hc => (isDelim_iff c).mp (ht c hc)
      rcases hx with rfl | ⟨d, r, rfl, hd⟩
      · rw [List.append_nil, maximalRuns_delims _ _ hds, maximalRuns_token_end t ht hne]
        exact IsRunSplit.last ds t hds2 hne ht2
      · rw [maximalRuns_delims _ _ hds, maximalRuns_token_cons t r d ht hne hd]
        exact IsRunSplit.more ds t d r _ hds2 hne ht2 ((isDelim_true_iff d).mp hd)
          (ih r (by simp at h; omega))

/-- A line has one run split only. -/
theorem isRunSplit_unique (line : List Char) (ts : List (List Char))
    (h : IsRunSplit line ts) : ts = maximalRuns line := by
  induction h with
  | none ds hds =>
    have hall : ∀ c ∈ ds, isDelim c = true := fun c hc => (isDelim_true_iff c).mpr (hds c hc)
    have h0 := maximalRuns_delims ds [] hall
    rw [List.append_nil] at h0
    rw [h0, maximalRuns_nil]
  | last ds t hds hne ht =>
    rw [maximalRuns_delims _ _ (fun c hc => (isDelim_true_iff c).mpr (hds c hc)),
      maximalRuns_token_end t (fun c hc => (isDelim_iff c).mpr (ht c hc)) hne]
  | more ds t d rest ts hds hne ht hd _ ih =>
    rw [maximalRuns_delims _ _ (fun c hc => (isDelim_true_iff c).mpr (hds c hc)),
      maximalRuns_token_cons t rest d (fun c hc => (isDelim_iff c).mpr (ht c hc)) hne
        ((isDelim_true_iff d).mpr hd), ih]

/-! ## Lemmas on the loop -/

/-- Claim C1, amended: for every line without an embedded NUL that has fewer
than `TOKEN_LIMIT` = 2^31 - 1024 tokens (allocation succeeding),
`lsh_split_line` returns; the strings its token array addresses are exactly
the maximal contiguous runs of non-delimiter characters of the line, in
order, and the entry after the last of them is the `NULL` sentinel.  No token
is empty, none contains a delimiter, and the tokens concatenated are the line
with its delimiters deleted. -/
theorem lsh_split_line_tokens (os : OS W) (line : List Char) (p : Proc W)
    (hal : ∀ n, os.allocOk n = true) (hnul : NUL ∉ line)
    (hcount : (maximalRuns line).length < TOKEN_LIMIT) :
    ∃ r, lsh_split_line os line p = .ret r p ∧
      argv r = maximalRuns line ∧
      IsRunSplit line (argv r) ∧
      r.tokens.read (argv r).length = some none ∧
      (∀ t ∈ argv r, t ≠ [] ∧ ∀ c ∈ t, c ∉ LSH_TOK_DELIM) ∧
      (argv r).flatten = line.filter (fun c => !LSH_TOK_DELIM.contains c) := by
  obtain ⟨ptrs, buf, e1, e2⟩ :=
    lsh_split_line_eq os line p hal (by rw [cline_eq_self line hnul]; exact hcount)
  rw [cline_eq_self line hnul] at e2
  obtain ⟨m1, m2, _⟩ := maximalRuns_props line.length line (Nat.le_refl _)
  have hargv : argv ⟨fill ⟨LSH_RL_BUFSIZE, []⟩ 0 ptrs, buf, ptrs.length⟩ = maximalRuns line := by
    rw [argv_fill, e2]
  refine ⟨_, e1, hargv, ?_, ?_, ?_, ?_⟩
  · rw [hargv]
    exact maximalRuns_isRunSplit line.length line (Nat.le_refl _)
  · rw [hargv, ← e2, List.length_map]
    have := fill_read_sentinel ptrs ⟨LSH_RL_BUFSIZE, []⟩ 0
    simpa using this
  · rw [hargv]
    intro t ht
    exact ⟨(m1 t ht).1, fun c hc => (isDelim_iff c).mp ((m1 t ht).2 c hc)⟩
  · rw [hargv, m2]; rfl

/-- Claim C1, amended, at the line `ls -l`: the tokens are `ls` and `-l`. -/
theorem lsh_split_line_tokens_witness :
    ∃ r, lsh_split_line (denyOS Unit) "ls -l\n".toList (idleProc ()) = .ret r (idleProc ()) ∧
      argv r = ["ls".toList, "-l".toList] ∧ r.tokens.read 2 = some none := by
  obtain ⟨r, h1, h2, _, h3, _⟩ :=
    lsh_split_line_tokens (denyOS Unit) "ls -l\n".toList (idleProc ()) (fun _ => rfl)
      (by decide) (by decide)
  have h4 : argv r = ["ls".toList, "-l".toList] := by rw [h2]; decide
  rw [h4] at h3
  exact ⟨r, h1, h4, h3⟩

/-- Claim C1 as stated fails: on the line of `TOKEN_LIMIT` = 2^31 - 1024 tokens
`a` (no NUL in it, every allocation granted) `lsh_split_line` returns no
token array: after the store of the last token `position` equals `bufsize`
= 2^31 - 1024 and `bufsize += LSH_RL_BUFSIZE` overflows `int`. -/
theorem lsh_split_line_no_tokens_at_token_limit :
    NUL ∉ tokenLine TOKEN_LIMIT ∧
    (maximalRuns (tokenLine TOKEN_LIMIT)).length = 2147482624 ∧
    ¬ ∃ r, lsh_split_line (denyOS Unit) (tokenLine TOKEN_LIMIT) (idleProc ()) =
      .ret r (idleProc ()) := by
  refine ⟨tokenLine_no_NUL _, ?_, ?_⟩
  · rw [maximalRuns_tokenLine, List.length_replicate]; rfl
  · rintro ⟨r, hr⟩
    rw [lsh_split_line_overflow (denyOS Unit) (tokenLine TOKEN_LIMIT) (idleProc ())
      (fun _ => rfl) (by
        rw [cline_eq_self _ (tokenLine_no_NUL _), maximalRuns_tokenLine,
          List.length_replicate])] at hr
    cases hr

/-- Claim C2: `lsh_execute` returns 0 if and only if the first token is `exit`.
Whenever it returns, the status is 0 or 1 and it is 0 exactly for `exit`;
`exit` with any arguments returns 0; the empty sequence returns 1; every other
builtin returns 1 whatever its operating-system call does; an external launch
returns 1 when `fork` fails, and when `fork` succeeds it returns 1 once the
child is reported exited or killed. -/
theorem lsh_execute_status (os : OS W) (fuel : Nat) (args : List (List Char)) (p : Proc W) :
    (∀ s q, lsh_execute os fuel args p = .ret s q →
      (s = 0 ↔ args.head? = some "exit".toList) ∧ (s = 0 ∨ s = 1)) ∧
    (∀ rest, args = "exit".toList :: rest → lsh_execute os fuel args p = .ret 0 p) ∧
    (args = [] → lsh_execute os fuel args p = .ret 1 p) ∧
    (∀ a rest, args = a :: rest → a ∈ builtin_str → a ≠ "exit".toList →
      ∃ q, lsh_execute os fuel args p = .ret 1 q) ∧
    (∀ a rest, args = a :: rest → a ∉ builtin_str → (os.fork p.sys).1 < 0 →
      ∃ q, lsh_execute os fuel args p = .ret 1 q) ∧
    (∀ a rest k, args = a :: rest → a ∉ builtin_str → 0 < (os.fork p.sys).1 →
      (∀ j, j < k →
        WIFEXITED (waitReport os (os.fork p.sys).1 j (os.fork p.sys).2) = false ∧
        WIFSIGNALED (waitReport os (os.fork p.sys).1 j (os.fork p.sys).2) = false) →
      (WIFEXITED (waitReport os (os.fork p.sys).1 k (os.fork p.sys).2) = true ∨
        WIFSIGNALED (waitReport os (os.fork p.sys).1 k (os.fork p.sys).2) = true) →
      k < fuel → ∃ q, lsh_execute os fuel args p = .ret 1 q) := by
  refine ⟨fun s q h => lsh_execute_ret os fuel args p s q h, ?_, ?_, ?_, ?_, ?_⟩
  · rintro rest rfl
    rw [lsh_execute_cons]; rfl
  · rintro rfl; rfl
  · rintro a rest rfl hin hne
    exact lsh_execute_builtin_ret os fuel a rest p hin hne
  · rintro a rest rfl hin hf
    rw [lsh_execute_not_builtin os fuel a rest p hin, lsh_launch_fork_failed os fuel _ p hf]
    exact ⟨_, rfl⟩
  · rintro a rest k rfl hin hf hpre hk hfuel
    rw [lsh_execute_not_builtin os fuel a rest p hin,
      lsh_launch_parent os fuel _ p k hf hpre hk hfuel]
    exact ⟨_, rfl⟩

/-- Claim C2 at `sleep 1`, the child first stopped and then exited. -/
theorem lsh_execute_status_witness :
    ∃ q, lsh_execute scriptOS 2 ["sleep".toList, "1".toList]
      (idleProc [WaitStatus.stopped 19, WaitStatus.exited 0]) = .ret 1 q :=
  (lsh_execute_status scriptOS 2 ["sleep".toList, "1".toList]
    (idleProc [WaitStatus.stopped 19, WaitStatus.exited 0])).2.2.2.2.2
    "sleep".toList ["1".toList] 1 rfl (by decide) (by decide)
    (by intro j hj; interval_cases j; exact ⟨rfl, rfl⟩) (Or.inl rfl) (by decide)

/-- Claim C3: on a non-empty token sequence `lsh_execute` is the call of the
handler paired with the builtin name that equals the first token, with the
full sequence, and is `lsh_launch` when the first token is none of the eight
names.  A first token `CD`, `Exit`, `exi` or `cdx` goes to `lsh_launch`. -/
theorem lsh_execute_dispatch (os : OS W) (fuel : Nat) (a : List Char)
    (rest : List (List Char)) (p : Proc W) :
    (a = "cd".toList → lsh_execute os fuel (a :: rest) p = lsh_cd os (a :: rest) p) ∧
    (a = "help".toList → lsh_execute os fuel (a :: rest) p = lsh_help os (a :: rest) p) ∧
    (a = "exit".toList → lsh_execute os fuel (a :: rest) p = lsh_exit os (a :: rest) p) ∧
    (a = "mkdir".toList → lsh_execute os fuel (a :: rest) p = lsh_mkdir os (a :: rest) p) ∧
    (a = "ls".toList → lsh_execute os fuel (a :: rest) p = lsh_ls os (a :: rest) p) ∧
    (a = "pwd".toList → lsh_execute os fuel (a :: rest) p = lsh_pwd os (a :: rest) p) ∧
    (a = "touch".toList → lsh_execute os fuel (a :: rest) p = lsh_touch os (a :: rest) p) ∧
    (a = "rmdir".toList → lsh_execute os fuel (a :: rest) p = lsh_rmdir os (a :: rest) p) ∧
    (a ∉ builtin_str →
      lsh_execute os fuel (a :: rest) p = lsh_launch os fuel (a :: rest) p) ∧
    lsh_execute os fuel ("CD".toList :: rest) p = lsh_launch os fuel ("CD".toList :: rest) p ∧
    lsh_execute os fuel ("Exit".toList :: rest) p =
      lsh_launch os fuel ("Exit".toList :: rest) p ∧
    lsh_execute os fuel ("exi".toList :: rest) p =
      lsh_launch os fuel ("exi".toList :: rest) p ∧
    lsh_execute os fuel ("cdx".toList :: rest) p =
      lsh_launch os fuel ("cdx".toList :: rest) p := by
  refine ⟨?_, ?_, ?_, ?_, ?_, ?_, ?_, ?_, lsh_execute_not_builtin os fuel a rest p,
    lsh_execute_not_builtin os fuel _ rest p (by decide),
    lsh_execute_not_builtin os fuel _ rest p (by decide),
    lsh_execute_not_builtin os fuel _ rest p (by decide),
    lsh_execute_not_builtin os fuel _ rest p (by decide)⟩
  · rintro rfl; rw [lsh_execute_cons]; rfl
  · rintro rfl; rw [lsh_execute_cons]; rfl
  · rintro rfl; rw [lsh_execute_cons]; rfl
  · rintro rfl; rw [lsh_execute_cons]; rfl
  · rintro rfl; rw [lsh_execute_cons]; rfl
  · rintro rfl; rw [lsh_execute_cons]; rfl
  · rintro rfl; rw [lsh_execute_cons]; rfl
  · rintro rfl; rw [lsh_execute_cons]; rfl

/-- Claim C4: a line made of delimiters only (the empty line included) is
tokenized to the empty sequence, the `NULL` sentinel at index 0, and
`lsh_execute` on it returns 1 and leaves the whole process state as it was:
no handler, no launch, no output. -/
theorem delimiter_line_is_noop (os : OS W) (fuel : Nat) (line : List Char) (p : Proc W)
    (hal : os.allocOk (LSH_RL_BUFSIZE * sizeof_ptr) = true)
    (hd : ∀ c ∈ line, c ∈ LSH_TOK_DELIM) :
    ∃ r, lsh_split_line os line p = .ret r p ∧
      r.tokens.read 0 = some none ∧ argv r = [] ∧
      lsh_execute os fuel (argv r) p = .ret 1 p := by
  have hds : ∀ c ∈ line, isDelim c = true := fun c hc => by
    simpa [isDelim] using hd c hc
  obtain ⟨h1, h2⟩ := strtok_none [] line [] ⟨line ++ [NUL], 0⟩ (some 0) rfl rfl hds
  have e1 : lsh_split_line os line p =
      .ret ⟨(⟨LSH_RL_BUFSIZE, []⟩ : TokenArray).store 0 none, line ++ [NUL], 0⟩ p := by
    unfold lsh_split_line
    simp only [hal, if_true]
    rw [h1, split_loop_none, h2]
  have e2 : argv ⟨(⟨LSH_RL_BUFSIZE, []⟩ : TokenArray).store 0 none, line ++ [NUL], 0⟩ = [] := by
    have := argv_fill [] (line ++ [NUL]) 0
    simpa [fill] using this
  refine ⟨_, e1, rfl, e2, ?_⟩
  rw [e2]; rfl

/-- Claim C4 at a line of blank, tab, carriage return and newline. -/
theorem delimiter_line_is_noop_witness :
    ∃ r, lsh_split_line (denyOS Unit) " \t\r\n".toList (idleProc ()) = .ret r (idleProc ()) ∧
      r.tokens.read 0 = some none ∧ argv r = [] ∧
      lsh_execute (denyOS Unit) 0 (argv r) (idleProc ()) = .ret 1 (idleProc ()) :=
  delimiter_line_is_noop (denyOS Unit) 0 " \t\r\n".toList (idleProc ()) rfl (by decide)

/-- Claim C6: `cd`, `mkdir`, `touch` and `rmdir` called with no argument return
1, write their missing-argument message to standard error and change nothing
else: the operating-system state is the one before the call, for every
operating system. -/
theorem builtin_missing_argument (os : OS W) (fuel : Nat) (a : List Char) (p : Proc W) :
    lsh_cd os [a] p =
      .ret 1 { p with stderr := p.stderr ++ "lsh: cd: missing argument\n".toList } ∧
    lsh_mkdir os [a] p =
      .ret 1 { p with stderr := p.stderr ++ "lsh: mkdir: missing argument\n".toList } ∧
    lsh_touch os [a] p =
      .ret 1 { p with stderr := p.stderr ++ "lsh: touch: missing argument\n".toList } ∧
    lsh_rmdir os [a] p =
      .ret 1 { p with stderr := p.stderr ++ "lsh: rmdir: missing argument\n".toList } ∧
    lsh_execute os fuel ["cd".toList] p =
      .ret 1 { p with stderr := p.stderr ++ "lsh: cd: missing argument\n".toList } ∧
    lsh_execute os fuel ["mkdir".toList] p =
      .ret 1 { p with stderr := p.stderr ++ "lsh: mkdir: missing argument\n".toList } ∧
    lsh_execute os fuel ["touch".toList] p =
      .ret 1 { p with stderr := p.stderr ++ "lsh: touch: missing argument\n".toList } ∧
    lsh_execute os fuel ["rmdir".toList] p =
      .ret 1 { p with stderr := p.stderr ++ "lsh: rmdir: missing argument\n".toList } := by
  refine ⟨rfl, rfl, rfl, rfl, ?_, ?_, ?_, ?_⟩ <;> rw [lsh_execute_cons] <;> rfl

/-- Claim C7, amended: after a successful `fork` the parent stops waiting at the
first report in which the child has exited or has been terminated by a
signal (report number `k`), having made `k + 1` calls of `waitpid`, and
returns 1. -/
theorem lsh_launch_waits_for_exit_or_kill (os : OS W) (fuel : Nat) (args : List (List Char))
    (p : Proc W) (k : Nat) (hfork : 0 < (os.fork p.sys).1)
    (hpre : ∀ j, j < k →
      WIFEXITED (waitReport os (os.fork p.sys).1 j (os.fork p.sys).2) = false ∧
      WIFSIGNALED (waitReport os (os.fork p.sys).1 j (os.fork p.sys).2) = false)
    (hk : WIFEXITED (waitReport os (os.fork p.sys).1 k (os.fork p.sys).2) = true ∨
      WIFSIGNALED (waitReport os (os.fork p.sys).1 k (os.fork p.sys).2) = true)
    (hfuel : k < fuel) :
    lsh_launch os fuel args p =
      .ret 1 { p with sys := waitWorld os (os.fork p.sys).1 (k + 1) (os.fork p.sys).2 } :=
  lsh_launch_parent os fuel args p k hfork hpre hk hfuel

/-- Claim C7, amended, at the reports stopped, continued, killed, exited: the wait ends at the third. -/
theorem lsh_launch_waits_for_exit_or_kill_witness :
    lsh_launch scriptOS 5 ["sleep".toList]
        (idleProc [WaitStatus.stopped 19, WaitStatus.continued, WaitStatus.signaled 9,
          WaitStatus.exited 0]) =
      .ret 1 (idleProc [WaitStatus.exited 0]) :=
  lsh_launch_waits_for_exit_or_kill scriptOS 5 ["sleep".toList]
    (idleProc [WaitStatus.stopped 19, WaitStatus.continued, WaitStatus.signaled 9,
      WaitStatus.exited 0]) 2 (by decide)
    (by intro j hj; interval_cases j <;> exact ⟨rfl, rfl⟩) (Or.inr rfl) (by decide)

/-- Claim C7 as stated fails: the first report says the child was stopped by a
signal, and the parent goes on to a second `waitpid` call. -/
theorem lsh_launch_keeps_waiting_when_stopped :
    WIFSTOPPED (waitReport scriptOS 1 0 [WaitStatus.stopped 19, WaitStatus.exited 0]) = true ∧
    lsh_launch scriptOS 5 ["sleep".toList]
        (idleProc [WaitStatus.stopped 19, WaitStatus.exited 0]) =
      .ret 1 (idleProc (waitWorld scriptOS 1 2 [WaitStatus.stopped 19, WaitStatus.exited 0])) ∧
    waitWorld scriptOS 1 2 [WaitStatus.stopped 19, WaitStatus.exited 0] ≠
      waitWorld scriptOS 1 1 [WaitStatus.stopped 19, WaitStatus.exited 0] := by
  refine ⟨rfl, rfl, by decide⟩

/-- Claim C8, amended: in a well-formed file system, unless `foo` names an
existing empty directory that `rmdir` can remove (an entry of its parent
directory: the last component of `foo` is a name, not `.` or `..`),
dispatching `mkdir foo` and then `rmdir foo` leaves the nodes and the working
directory as they were. -/
theorem mkdir_rmdir_round_trip (base : OS FsWorld) (fuel : Nat) (foo : List Char)
    (p : Proc FsWorld) (hwf : p.sys.wellFormed = true) (h : p.sys.isEmptyDir foo = false) :
    ∃ p1 p2,
      lsh_execute (fsOS base) fuel ["mkdir".toList, foo] p = .ret 1 p1 ∧
      lsh_execute (fsOS base) fuel ["rmdir".toList, foo] p1 = .ret 1 p2 ∧
      p2.sys.nodes = p.sys.nodes ∧ p2.sys.cwd = p.sys.cwd := by
  obtain ⟨p1, e1, s1⟩ := lsh_mkdir_sys (fsOS base) "mkdir".toList foo p
  obtain ⟨p2, e2, s2⟩ := lsh_rmdir_sys (fsOS base) "rmdir".toList foo p1
  refine ⟨p1, p2, ?_, ?_, ?_⟩
  · rw [lsh_execute_cons]; exact e1
  · rw [lsh_execute_cons]; exact e2
  · rw [s2, s1]
    exact fsMkdir_fsRmdir p.sys foo 0o755 hwf h

/-- Claim C8, amended, at `foo` inside the directory `/home`. -/
theorem mkdir_rmdir_round_trip_witness :
    ∃ p1 p2,
      lsh_execute (fsOS (denyOS FsWorld)) 0 ["mkdir".toList, "foo".toList]
        (idleProc ⟨[(["home".toList], NodeKind.dir)], ["home".toList], 0⟩) = .ret 1 p1 ∧
      lsh_execute (fsOS (denyOS FsWorld)) 0 ["rmdir".toList, "foo".toList] p1 = .ret 1 p2 ∧
      p2.sys.nodes = [(["home".toList], NodeKind.dir)] ∧ p2.sys.cwd = ["home".toList] :=
  mkdir_rmdir_round_trip (denyOS FsWorld) 0 "foo".toList
    (idleProc ⟨[(["home".toList], NodeKind.dir)], ["home".toList], 0⟩) (by decide) (by decide)

/-- Claim C8 as stated fails: when `foo` is an existing empty directory,
`mkdir foo` fails and `rmdir foo` removes the directory. -/
theorem mkdir_rmdir_removes_existing_directory :
    (⟨[(["foo".toList], NodeKind.dir)], [], 0⟩ : FsWorld).wellFormed = true ∧
    ∃ p1 p2,
      lsh_execute (fsOS (denyOS FsWorld)) 0 ["mkdir".toList, "foo".toList]
        (idleProc ⟨[(["foo".toList], NodeKind.dir)], [], 0⟩) = .ret 1 p1 ∧
      lsh_execute (fsOS (denyOS FsWorld)) 0 ["rmdir".toList, "foo".toList] p1 = .ret 1 p2 ∧
      p1.sys.nodes = [(["foo".toList], NodeKind.dir)] ∧
      p2.sys.nodes = [] ∧
      p2.sys.nodes ≠ (idleProc (⟨[(["foo".toList], NodeKind.dir)], [], 0⟩ : FsWorld)).sys.nodes :=
  ⟨by decide, _, _, rfl, rfl, rfl, rfl, by decide⟩

set_option maxRecDepth 100000 in
/-- Claim C9 fails on the code: on a line of 64 tokens the array was allocated
with `LSH_RL_BUFSIZE` = 1024 entries, not `LSH_TOK_BUFSIZE` = 64, every store
saw the capacity 1024, and the array was never enlarged. -/
theorem lsh_split_line_capacity_is_1024 :
    ∃ r, lsh_split_line (denyOS Unit) line64 (idleProc ()) = .ret r (idleProc ()) ∧
      r.position = 64 ∧
      r.tokens.bufsize = LSH_RL_BUFSIZE ∧
      r.tokens.bufsize ≠ LSH_TOK_BUFSIZE ∧
      r.tokens.stores.all (fun s => s.cap == 1024) = true :=
  ⟨_, rfl, rfl, rfl, by decide, by decide⟩

/-- Claim C10, amended: for every line with fewer than `TOKEN_LIMIT` = 2^31 -
1024 tokens (allocation succeeding) `lsh_split_line` returns, every store it
made into the token array was at an index below the capacity the array had
at that moment, the stores are at the indices `position`, ..., 1, 0, the
entries below `position` hold pointers and entry `position` holds the `NULL`
sentinel.  Neither counter leaves the range of `int`. -/
theorem lsh_split_line_stores_in_bounds (os : OS W) (line : List Char) (p : Proc W)
    (hal : ∀ n, os.allocOk n = true)
    (hcount : (maximalRuns (cline line)).length < TOKEN_LIMIT) :
    ∃ r, lsh_split_line os line p = .ret r p ∧
      (∀ s ∈ r.tokens.stores, s.idx < s.cap) ∧
      r.tokens.stores.map (fun s => s.idx) = (List.range (r.position + 1)).reverse ∧
      (∀ i, i < r.position → ∃ q, r.tokens.read i = some (some q)) ∧
      r.tokens.read r.position = some none ∧
      r.position = (maximalRuns (cline line)).length ∧
      r.position < r.tokens.bufsize ∧
      r.tokens.bufsize ≤ r.position + LSH_RL_BUFSIZE ∧
      r.position ≤ line.length ∧
      r.tokens.bufsize ≤ INT_MAX := by
  obtain ⟨ptrs, buf, e1, e2⟩ := lsh_split_line_eq os line p hal hcount
  have hlen : ptrs.length = (maximalRuns (cline line)).length := by
    rw [← e2, List.length_map]
  obtain ⟨_, _, m3⟩ := maximalRuns_props (cline line).length (cline line) (Nat.le_refl _)
  have hle := fill_bufsize_le ptrs ⟨LSH_RL_BUFSIZE, []⟩ 0 (by simp)
  refine ⟨_, e1, ?_, ?_, ?_, ?_, hlen, ?_, ?_, ?_, ?_⟩
  · exact fill_stores_inbounds ptrs ⟨LSH_RL_BUFSIZE, []⟩ 0 (by decide) (by simp)
  · have := fill_stores_idx ptrs ⟨LSH_RL_BUFSIZE, []⟩ 0
    simpa [List.range_eq_range'] using this
  · intro i hi
    have hi2 : i < ptrs.length := hi
    have := fill_read_ptr ptrs ⟨LSH_RL_BUFSIZE, []⟩ 0 i ptrs[i] (by simp [hi2])
    exact ⟨ptrs[i], by simpa using this⟩
  · have := fill_read_sentinel ptrs ⟨LSH_RL_BUFSIZE, []⟩ 0
    simpa using this
  · have := fill_bufsize ptrs ⟨LSH_RL_BUFSIZE, []⟩ 0 (by decide)
    simpa using this
  · simpa using hle
  · have := cline_length_le line
    show ptrs.length ≤ line.length
    omega
  · show (fill ⟨LSH_RL_BUFSIZE, []⟩ 0 ptrs).bufsize ≤ INT_MAX
    simp only [TOKEN_LIMIT, INT_MAX, LSH_RL_BUFSIZE] at *
    omega

/-- Claim C10, amended, at the line `a b`: stores at the indices 2, 1, 0, each
below the capacity 1024. -/
theorem lsh_split_line_stores_in_bounds_witness :
    ∃ r, lsh_split_line (denyOS Unit) "a b\n".toList (idleProc ()) = .ret r (idleProc ()) ∧
      (∀ s ∈ r.tokens.stores, s.idx < s.cap) ∧
      r.tokens.stores.map (fun s => s.idx) = (List.range (r.position + 1)).reverse ∧
      r.tokens.read r.position = some none := by
  obtain ⟨r, h1, h2, h3, _, h4, _⟩ :=
    lsh_split_line_stores_in_bounds (denyOS Unit) "a b\n".toList (idleProc ()) (fun _ => rfl)
      (by decide)
  exact ⟨r, h1, h2, h3, h4⟩

/-- Claim C10 as stated fails: on the line of `TOKEN_LIMIT` = 2^31 - 1024
tokens, every allocation granted, the capacity check after the last token
store finds `position` = `bufsize` = 2^31 - 1024 and `bufsize +=
LSH_RL_BUFSIZE` overflows `int`: the behaviour is undefined and no array with
a sentinel is returned. -/
theorem lsh_split_line_overflows_at_token_limit :
    (∀ n, (denyOS Unit).allocOk n = true) ∧
    INT_MAX < TOKEN_LIMIT + LSH_RL_BUFSIZE ∧
    lsh_split_line (denyOS Unit) (tokenLine TOKEN_LIMIT) (idleProc ()) = .undefined :=
  ⟨fun _ => rfl, by decide,
    lsh_split_line_overflow (denyOS Unit) (tokenLine TOKEN_LIMIT) (idleProc ())
      (fun _ => rfl) (by
        rw [cline_eq_self _ (tokenLine_no_NUL _), maximalRuns_tokenLine,
          List.length_replicate])⟩

end SmartShell
